import Mathlib

/-!
Verification of the omega screen recorder core against its specification.

Shallow embedding of the relevant parts of the source:
  * `src/db.rs`            — the metadata catalog (`insert_video_chunk`, `insert_frame`)
  * `src/encoder.rs`       — the chunking encoder (`process_frames_chunked`,
                             `encode_frame`, `receive_packets`, `rgb_to_yuv420p`,
                             `try_recover_encoder`, encoder priority lists)
  * `src/capture.rs`       — `MonitorSwitchDetector::check_for_switch`, `draw_cursor`
  * `src/display_info.rs`  — `get_display_at_cursor` (macOS and Windows variants)
  * `src/main.rs`          — the concat path of `concatenate_chunks_impl`
-/

namespace OmegaRec

/-! # Catalog model (src/db.rs)

`video_chunks` rows carry an AUTOINCREMENT `id` and a `device_name`;
`frames` rows carry a `video_chunk_id` and an `offset_index`.
Only the columns relevant to offset allocation are modelled. -/

structure ChunkRow where
  id : Nat
  device : String
  deriving Repr, DecidableEq

structure FrameRow where
  chunkId : Nat
  offsetIndex : Int
  deriving Repr, DecidableEq

structure Db where
  chunks : List ChunkRow
  frames : List FrameRow
  nextChunkId : Nat
  deriving Repr, DecidableEq

def Db.empty : Db := ⟨[], [], 1⟩

/-- `Database::insert_video_chunk`: INSERT a chunk row; AUTOINCREMENT ids are
fresh and strictly increasing, modelled by the `nextChunkId` counter. -/
def Db.insertVideoChunk (db : Db) (device : String) : Db :=
  { db with
    chunks := db.chunks ++ [⟨db.nextChunkId, device⟩]
    nextChunkId := db.nextChunkId + 1 }

/-- The SELECT in `insert_frame` step 1:
`SELECT id FROM video_chunks WHERE device_name = ? ORDER BY id DESC LIMIT 1`.
Returns `none` when the device has no chunk (the Rust `fetch_one` errors there). -/
def Db.latestChunkId (db : Db) (device : String) : Option Nat :=
  (db.chunks.filter (fun c => c.device == device)).foldl
    (fun acc c => match acc with
      | none => some c.id
      | some m => some (max m c.id)) none

/-- The SELECT in `insert_frame` step 2:
`SELECT COALESCE(MAX(offset_index), -1) + 1 FROM frames WHERE video_chunk_id = ?`. -/
def Db.nextOffsetIndex (db : Db) (chunkId : Nat) : Int :=
  ((db.frames.filter (fun f => f.chunkId == chunkId)).foldl
    (fun acc f => max acc f.offsetIndex) (-1)) + 1

/-- `Database::insert_frame`: inside one transaction, locate the latest chunk for
the device, compute the next offset index, and insert the frame row.
The whole function is one atomic state update, which models the transaction.
Fails (state unchanged, `none`) when the device has no chunk. -/
def Db.insertFrame (db : Db) (device : String) : Option Db :=
  match db.latestChunkId device with
  | none => none
  | some cid =>
      some { db with
        frames := db.frames ++ [⟨cid, db.nextOffsetIndex cid⟩] }

/-- States reachable from the empty catalog through the two mutating operations
used by the live pipeline (`insert_video_chunk` / `insert_frame`).  A failing
`insert_frame` leaves the state unchanged, so it needs no constructor. -/
inductive Db.Reachable : Db → Prop
  | init : Db.Reachable Db.empty
  | chunk {db : Db} (device : String) :
      Db.Reachable db → Db.Reachable (db.insertVideoChunk device)
  | frame {db db' : Db} (device : String) :
      Db.Reachable db → db.insertFrame device = some db' → Db.Reachable db'

/-- The offset indexes of a chunk's frame rows, in insertion order. -/
def Db.offsetsOf (db : Db) (chunkId : Nat) : List Int :=
  (db.frames.filter (fun f => f.chunkId == chunkId)).map (fun f => f.offsetIndex)

/-! ## Invariant: contiguous offsets (claim C1) -/

theorem foldl_max_range_int (n : Nat) :
    ((List.range n).map Int.ofNat).foldl max (-1) = (n : Int) - 1 := by
  induction n with
  | zero => simp
  | succ n ih =>
      rw [List.range_succ, List.map_append, List.foldl_append, ih]
      simp only [List.map_cons, List.map_nil, List.foldl_cons, List.foldl_nil,
        Int.ofNat_eq_coe]
      rw [max_eq_right (by omega : (n : Int) - 1 ≤ (n : Int))]
      push_cast
      ring

theorem nextOffsetIndex_eq_fold (db : Db) (c : Nat) :
    db.nextOffsetIndex c = (db.offsetsOf c).foldl max (-1) + 1 := by
  unfold Db.nextOffsetIndex Db.offsetsOf
  rw [List.foldl_map]

theorem offsetsOf_insertVideoChunk (db : Db) (device : String) (c : Nat) :
    (db.insertVideoChunk device).offsetsOf c = db.offsetsOf c := rfl

theorem offsetsOf_insertFrame {db db' : Db} {device : String}
    (h : db.insertFrame device = some db') (c : Nat) :
    ∃ cid, db.latestChunkId device = some cid ∧
      db'.offsetsOf c =
        db.offsetsOf c ++ (if c = cid then [db.nextOffsetIndex cid] else []) := by
  unfold Db.insertFrame at h
  cases hl : db.latestChunkId device with
  | none => rw [hl] at h; exact absurd h (by simp)
  | some cid =>
      rw [hl] at h
      refine ⟨cid, rfl, ?_⟩
      have hdb : db' = { db with frames := db.frames ++ [⟨cid, db.nextOffsetIndex cid⟩] } := by
        exact (Option.some_injective _ h).symm
      subst hdb
      unfold Db.offsetsOf
      rw [List.filter_append, List.map_append]
      by_cases hc : c = cid
      · subst hc; simp
      · have hb : (cid == c) = false := by
          simp only [beq_eq_false_iff_ne, ne_eq]
          exact fun hcc => hc hcc.symm
        simp [List.filter, hb, hc]

/-- C1: in every catalog state reachable through `insert_video_chunk` /
`insert_frame` (each append transactionally computing
`offset_index = COALESCE(MAX(offset_index), -1) + 1` over the latest chunk for
the device), the offset indexes of every chunk's frame rows are exactly
`0, 1, …, n-1`, in order, with no duplicates or gaps. -/
theorem reachable_offsets_contiguous {db : Db} (h : Db.Reachable db) (c : Nat) :
    db.offsetsOf c = (List.range (db.offsetsOf c).length).map Int.ofNat := by
  induction h with
  | init => simp [Db.offsetsOf, Db.empty]
  | chunk device _ ih => simpa [offsetsOf_insertVideoChunk] using ih
  | @frame db db' device _ hf ih =>
      obtain ⟨cid, _, heq⟩ := offsetsOf_insertFrame hf c
      by_cases hc : c = cid
      · subst hc
        rw [heq, if_pos rfl, nextOffsetIndex_eq_fold, ih, foldl_max_range_int]
        have h1 : ((db.offsetsOf c).length : Int) - 1 + 1
            = Int.ofNat (db.offsetsOf c).length := by
          simp only [Int.ofNat_eq_coe]; ring
        rw [h1]
        have hlen : ((List.range (db.offsetsOf c).length).map Int.ofNat
            ++ [Int.ofNat (db.offsetsOf c).length]).length
            = (db.offsetsOf c).length + 1 := by simp
        rw [hlen, List.range_succ, List.map_append]
        simp
      · rw [heq, if_neg hc, List.append_nil]
        exact ih

/-- Witness for C1: a catalog with one chunk for device `"d"` and two appended
frames is reachable, and its chunk-1 offsets are `[0, 1]`. -/
theorem reachable_offsets_contiguous_witness :
    Db.offsetsOf ⟨[⟨1, "d"⟩], [⟨1, 0⟩, ⟨1, 1⟩], 2⟩ 1 = [0, 1] := by
  have h1 : Db.Reachable ⟨[⟨1, "d"⟩], [], 2⟩ := Db.Reachable.chunk "d" Db.Reachable.init
  have h2 : Db.Reachable ⟨[⟨1, "d"⟩], [⟨1, 0⟩], 2⟩ :=
    Db.Reachable.frame "d" h1 (by decide)
  have h3 : Db.Reachable ⟨[⟨1, "d"⟩], [⟨1, 0⟩, ⟨1, 1⟩], 2⟩ :=
    Db.Reachable.frame "d" h2 (by decide)
  exact (reachable_offsets_contiguous h3 1).trans (by decide)

/-! # Chunk rollover (src/encoder.rs, `process_frames_chunked`)

`frames_per_chunk = fps * chunk_duration_secs`; on each received frame, if
`frames_in_current_chunk >= frames_per_chunk` the current chunk is finished and
a fresh one started (the received frame then lands in the new chunk); when the
channel closes, the final chunk is finished with whatever it holds. -/

def framesPerChunk (fps chunkDurationSecs : Nat) : Nat := fps * chunkDurationSecs

/-- The per-frame loop of `process_frames_chunked`, tracking only
`frames_in_current_chunk` (`cur`) and the sizes of finished chunks (`acc`);
`n` is the number of frames still to arrive on the channel. -/
def processChunkLoop (fpc : Nat) : Nat → Nat → List Nat → List Nat
  | 0, cur, acc => acc ++ [cur]
  | n + 1, cur, acc =>
      if fpc ≤ cur then processChunkLoop fpc n 1 (acc ++ [cur])
      else processChunkLoop fpc n (cur + 1) acc

/-- Frame counts of the chunks produced for an `n`-frame input sequence. -/
def chunkFrameCounts (fps chunkDurationSecs n : Nat) : List Nat :=
  processChunkLoop (framesPerChunk fps chunkDurationSecs) n 0 []

theorem processChunkLoop_acc (fpc : Nat) (n : Nat) :
    ∀ cur acc, processChunkLoop fpc n cur acc = acc ++ processChunkLoop fpc n cur [] := by
  induction n with
  | zero => intro cur acc; simp [processChunkLoop]
  | succ n ih =>
      intro cur acc
      by_cases h : fpc ≤ cur
      · simp only [processChunkLoop, if_pos h]
        rw [ih 1 (acc ++ [cur]), ih 1 ([] ++ [cur])]
        simp
      · simp only [processChunkLoop, if_neg h]
        rw [ih (cur + 1) acc]

/-- Closed form for the chunk counts of `t` frames total: `(t-1)/fpc` full
chunks of `fpc` frames and a final chunk with the rest. -/
def chunkPartition (fpc t : Nat) : List Nat :=
  List.replicate ((t - 1) / fpc) fpc ++ [t - fpc * ((t - 1) / fpc)]

theorem chunkPartition_small (fpc cur : Nat) (hf : 1 ≤ fpc) (hc : cur ≤ fpc) :
    chunkPartition fpc cur = [cur] := by
  unfold chunkPartition
  have hq : (cur - 1) / fpc = 0 := Nat.div_eq_of_lt (by omega)
  rw [hq]
  simp

theorem chunkPartition_add (fpc t : Nat) (hf : 1 ≤ fpc) (ht : 1 ≤ t) :
    chunkPartition fpc (t + fpc) = fpc :: chunkPartition fpc t := by
  unfold chunkPartition
  have h1 : t + fpc - 1 = (t - 1) + fpc := by omega
  rw [h1, Nat.add_div_right _ (by omega), List.replicate_succ]
  have h2 : fpc * ((t - 1) / fpc) ≤ t - 1 := by
    rw [Nat.mul_comm]; exact Nat.div_mul_le_self _ _
  have h3 : t + fpc - fpc * ((t - 1) / fpc + 1) = t - fpc * ((t - 1) / fpc) := by
    rw [Nat.mul_add, Nat.mul_one]
    omega
  rw [h3]
  simp

theorem processChunkLoop_closed (fpc : Nat) (hf : 1 ≤ fpc) :
    ∀ n cur, cur ≤ fpc → processChunkLoop fpc n cur [] = chunkPartition fpc (n + cur) := by
  intro n
  induction n with
  | zero =>
      intro cur hc
      simp only [Nat.zero_add]
      rw [chunkPartition_small fpc cur hf hc]
      simp [processChunkLoop]
  | succ n ih =>
      intro cur hc
      by_cases h : fpc ≤ cur
      · have hcf : cur = fpc := le_antisymm hc h
        subst hcf
        simp only [processChunkLoop, if_pos h]
        rw [processChunkLoop_acc, ih 1 (by omega)]
        rw [chunkPartition_add cur (n + 1) hf (by omega)]
        simp
      · simp only [processChunkLoop, if_neg h]
        rw [ih (cur + 1) (by omega)]
        congr 1
        omega

/-- C2: with `frames_per_chunk = fps * chunk_duration` ≥ 1, an input sequence
of `n ≥ 1` frames is partitioned in order into exactly
`ceil(n / frames_per_chunk)` chunks; every chunk except the last receives
exactly `frames_per_chunk` frames and the last receives the remainder, between
`1` and `frames_per_chunk` frames, the total over all chunks being `n`. -/
theorem chunkFrameCounts_partition (fps d n : Nat)
    (hf : 1 ≤ framesPerChunk fps d) (hn : 1 ≤ n) :
    chunkFrameCounts fps d n
      = List.replicate ((n - 1) / framesPerChunk fps d) (framesPerChunk fps d)
        ++ [n - framesPerChunk fps d * ((n - 1) / framesPerChunk fps d)]
    ∧ (chunkFrameCounts fps d n).length
        = (n + framesPerChunk fps d - 1) / framesPerChunk fps d
    ∧ (chunkFrameCounts fps d n).sum = n
    ∧ 1 ≤ n - framesPerChunk fps d * ((n - 1) / framesPerChunk fps d)
    ∧ n - framesPerChunk fps d * ((n - 1) / framesPerChunk fps d) ≤ framesPerChunk fps d := by
  set fpc := framesPerChunk fps d with hfpc
  have hmain : chunkFrameCounts fps d n = chunkPartition fpc n := by
    unfold chunkFrameCounts
    have h0 := processChunkLoop_closed fpc hf n 0 (by omega)
    simpa using h0
  have hdm := Nat.div_add_mod (n - 1) fpc
  have hmod : (n - 1) % fpc < fpc := Nat.mod_lt _ (by omega)
  have hcomm : (n - 1) / fpc * fpc = fpc * ((n - 1) / fpc) := Nat.mul_comm _ _
  refine ⟨by rw [hmain]; rfl, ?_, ?_, by omega, by omega⟩
  · rw [hmain]
    unfold chunkPartition
    simp only [List.length_append, List.length_replicate, List.length_cons,
      List.length_nil]
    have h1 : n + fpc - 1 = (n - 1) + fpc := by omega
    rw [h1, Nat.add_div_right _ (by omega)]
  · rw [hmain]
    unfold chunkPartition
    simp only [List.sum_append, List.sum_replicate, smul_eq_mul, List.sum_cons,
      List.sum_nil]
    omega

/-- Witness for C2: fps 30, chunk duration 2 s, 135 frames yields exactly the
three chunks `[60, 60, 15]`. -/
theorem chunkFrameCounts_partition_witness :
    1 ≤ framesPerChunk 30 2 ∧ 1 ≤ 135 ∧ chunkFrameCounts 30 2 135 = [60, 60, 15] := by
  refine ⟨by decide, by decide, ?_⟩
  have h := (chunkFrameCounts_partition 30 2 135 (by decide) (by decide)).1
  rw [h]
  decide

/-! # Concat chunk validation (src/main.rs, `concatenate_chunks_impl`)

Each catalogued chunk is checked against the probe tool's observations.  The
external observations (file existence, file size, probe outcomes) are inputs;
the decision logic is the source's.  The parsed duration is modelled as
`Option ℚ`: `none` when the probe failed, printed `N/A`, printed nothing, or
printed an unparseable string; `some d` for a successfully parsed number. -/

structure ChunkProbe where
  fileOnDisk : Bool
  fileSize : Nat
  hasVideoStream : Bool
  codecName : Option String
  durationValue : Option ℚ
  readPassClean : Bool
  deriving Repr, DecidableEq

inductive ChunkFate where
  | included
  | countedMissing
  | countedInvalid
  deriving Repr, DecidableEq

/-- The per-chunk decision of the validation loop in `concatenate_chunks_impl`:
missing file → counted missing; file smaller than 1024 bytes → counted invalid
(too small); otherwise included iff the video-stream probe, the duration check
(parsed, `0 < d < 3600`), the codec check (`h264` or `hevc`) and the clean
full-read pass all succeed. -/
def validateChunk (p : ChunkProbe) : ChunkFate :=
  if p.fileOnDisk then
    if p.fileSize < 1024 then ChunkFate.countedInvalid
    else
      let durationOk := match p.durationValue with
        | none => false
        | some d => decide (0 < d) && decide (d < 3600)
      let codecOk := match p.codecName with
        | none => false
        | some c => c == "h264" || c == "hevc"
      if p.hasVideoStream && durationOk && codecOk && p.readPassClean then
        ChunkFate.included
      else ChunkFate.countedInvalid
  else ChunkFate.countedMissing

structure ValidationSummary where
  existingChunks : Nat
  missingChunks : Nat
  invalidChunks : Nat
  concatList : List ChunkProbe
  deriving Repr, DecidableEq

def validationStep (s : ValidationSummary) (p : ChunkProbe) : ValidationSummary :=
  match validateChunk p with
  | ChunkFate.included =>
      { s with existingChunks := s.existingChunks + 1, concatList := s.concatList ++ [p] }
  | ChunkFate.countedMissing => { s with missingChunks := s.missingChunks + 1 }
  | ChunkFate.countedInvalid => { s with invalidChunks := s.invalidChunks + 1 }

/-- The chunk-validation loop: one pass over the catalogued chunks, counting
missing and invalid chunks and collecting the concat list in order. -/
def summarizeChunks (chunks : List ChunkProbe) : ValidationSummary :=
  chunks.foldl validationStep ⟨0, 0, 0, []⟩

inductive ConcatError where
  | invalidParameter
  deriving Repr, DecidableEq

/-- After validation, `existing_chunks == 0` fails with `InvalidParameter`. -/
def concatValidation (chunks : List ChunkProbe) : Except ConcatError ValidationSummary :=
  let s := summarizeChunks chunks
  if s.existingChunks = 0 then Except.error ConcatError.invalidParameter
  else Except.ok s

def ValidationSummary.append (a b : ValidationSummary) : ValidationSummary :=
  ⟨a.existingChunks + b.existingChunks, a.missingChunks + b.missingChunks,
    a.invalidChunks + b.invalidChunks, a.concatList ++ b.concatList⟩

theorem validationStep_append (s : ValidationSummary) (p : ChunkProbe) :
    validationStep s p = s.append (validationStep ⟨0, 0, 0, []⟩ p) := by
  unfold validationStep ValidationSummary.append
  cases validateChunk p <;> simp

theorem foldl_validationStep_append (chunks : List ChunkProbe) :
    ∀ s : ValidationSummary,
      chunks.foldl validationStep s = s.append (summarizeChunks chunks) := by
  induction chunks with
  | nil =>
      intro s
      simp [summarizeChunks, ValidationSummary.append]
  | cons p rest ih =>
      intro s
      simp only [summarizeChunks, List.foldl_cons]
      rw [ih (validationStep s p), ih (validationStep ⟨0, 0, 0, []⟩ p),
        validationStep_append s p]
      unfold ValidationSummary.append
      simp [Nat.add_assoc]

theorem summarizeChunks_cons (p : ChunkProbe) (rest : List ChunkProbe) :
    summarizeChunks (p :: rest)
      = (validationStep ⟨0, 0, 0, []⟩ p).append (summarizeChunks rest) := by
  unfold summarizeChunks
  rw [List.foldl_cons, foldl_validationStep_append, validationStep_append]
  rfl

theorem summarizeChunks_concatList (chunks : List ChunkProbe) :
    (summarizeChunks chunks).concatList
      = chunks.filter (fun p => validateChunk p = ChunkFate.included) := by
  induction chunks with
  | nil => simp [summarizeChunks]
  | cons p rest ih =>
      rw [summarizeChunks_cons]
      unfold ValidationSummary.append
      simp only
      rw [ih]
      unfold validationStep
      cases h : validateChunk p <;> simp [List.filter, h]

theorem summarizeChunks_counts (chunks : List ChunkProbe) :
    (summarizeChunks chunks).existingChunks + (summarizeChunks chunks).missingChunks
      + (summarizeChunks chunks).invalidChunks = chunks.length
    ∧ (summarizeChunks chunks).existingChunks
      = (summarizeChunks chunks).concatList.length := by
  induction chunks with
  | nil => simp [summarizeChunks]
  | cons p rest ih =>
      rw [summarizeChunks_cons]
      unfold ValidationSummary.append
      simp only [List.length_cons, List.length_append]
      unfold validationStep
      cases h : validateChunk p <;> simp <;> omega

theorem validateChunk_included_iff (p : ChunkProbe) :
    validateChunk p = ChunkFate.included
      ↔ (p.fileOnDisk = true ∧ 1024 ≤ p.fileSize ∧ p.hasVideoStream = true
          ∧ (p.codecName = some "h264" ∨ p.codecName = some "hevc")
          ∧ (∃ d : ℚ, p.durationValue = some d ∧ 0 < d ∧ d < 3600)
          ∧ p.readPassClean = true) := by
  obtain ⟨fd, fs, hv, cn, dv, rp⟩ := p
  unfold validateChunk
  cases fd
  · simp
  · simp only [if_true]
    by_cases hsz : fs < 1024
    · simp only [if_pos hsz]
      constructor
      · intro h; exact absurd h (by simp)
      · intro h; omega
    · simp only [if_neg hsz]
      cases dv with
      | none => simp
      | some d =>
          cases cn with
          | none => simp
          | some c =>
              by_cases hcond : (hv && (decide (0 < d) && decide (d < 3600))
                  && (c == "h264" || c == "hevc") && rp) = true
              · rw [if_pos hcond]
                simp only [Bool.and_eq_true, Bool.or_eq_true, beq_iff_eq,
                  decide_eq_true_eq] at hcond
                obtain ⟨⟨⟨h1, h2, h3⟩, h4⟩, h5⟩ := hcond
                simp only [true_iff]
                refine ⟨by trivial, by omega, h1, ?_, ⟨d, rfl, h2, h3⟩, h5⟩
                rcases h4 with h | h
                · exact Or.inl (by rw [h])
                · exact Or.inr (by rw [h])
              · rw [if_neg hcond]
                simp only [Bool.and_eq_true, Bool.or_eq_true, beq_iff_eq,
                  decide_eq_true_eq] at hcond
                constructor
                · intro h; exact absurd h (by simp)
                · rintro ⟨-, -, h1, h4, ⟨d', hd', h2, h3⟩, h5⟩
                  have hdd : d = d' := by injection hd'
                  subst hdd
                  refine absurd ⟨⟨⟨h1, h2, h3⟩, ?_⟩, h5⟩ hcond
                  rcases h4 with h | h
                  · exact Or.inl (by injection h)
                  · exact Or.inr (by injection h)

theorem validateChunk_missing_iff (p : ChunkProbe) :
    validateChunk p = ChunkFate.countedMissing ↔ p.fileOnDisk = false := by
  obtain ⟨fd, fs, hv, cn, dv, rp⟩ := p
  unfold validateChunk
  cases fd
  · simp
  · simp only [if_true, Bool.true_eq_false, iff_false]
    by_cases hsz : fs < 1024
    · simp [hsz]
    · simp only [if_neg hsz]
      split
      · simp
      · simp

/-- C3: a catalogued chunk enters the concat list iff its file exists and is at
least 1024 bytes, a video stream exists, the codec is `h264` or `hevc`, the
probed duration parses with `0 < d < 3600`, and the full probe read pass
succeeds with empty stderr; a chunk failing any check is excluded and counted
(missing when the file is absent, invalid otherwise, including too-small
files); if no chunk survives, the operation fails with `InvalidParameter`. -/
theorem concatValidation_spec :
    (∀ p : ChunkProbe,
      validateChunk p = ChunkFate.included
        ↔ (p.fileOnDisk = true ∧ 1024 ≤ p.fileSize ∧ p.hasVideoStream = true
            ∧ (p.codecName = some "h264" ∨ p.codecName = some "hevc")
            ∧ (∃ d : ℚ, p.durationValue = some d ∧ 0 < d ∧ d < 3600)
            ∧ p.readPassClean = true))
    ∧ (∀ p : ChunkProbe,
        validateChunk p = ChunkFate.countedMissing ↔ p.fileOnDisk = false)
    ∧ (∀ p : ChunkProbe, p.fileOnDisk = true → p.fileSize < 1024 →
        validateChunk p = ChunkFate.countedInvalid)
    ∧ (∀ chunks : List ChunkProbe,
        (summarizeChunks chunks).concatList
            = chunks.filter (fun p => validateChunk p = ChunkFate.included)
        ∧ (summarizeChunks chunks).existingChunks
            + (summarizeChunks chunks).missingChunks
            + (summarizeChunks chunks).invalidChunks = chunks.length
        ∧ (concatValidation chunks = Except.error ConcatError.invalidParameter
            ↔ ∀ p ∈ chunks, validateChunk p ≠ ChunkFate.included)) := by
  refine ⟨validateChunk_included_iff, validateChunk_missing_iff, ?_, ?_⟩
  · intro p h1 h2
    unfold validateChunk
    rw [h1]
    simp [h2]
  · intro chunks
    refine ⟨summarizeChunks_concatList chunks, (summarizeChunks_counts chunks).1, ?_⟩
    unfold concatValidation
    by_cases hz : (summarizeChunks chunks).existingChunks = 0
    · simp only [if_pos hz, true_iff]
      have hlen := (summarizeChunks_counts chunks).2
      rw [hz] at hlen
      have hnil : (summarizeChunks chunks).concatList = [] :=
        List.eq_nil_of_length_eq_zero hlen.symm
      rw [summarizeChunks_concatList chunks] at hnil
      intro p hp hinc
      have : p ∈ chunks.filter (fun p => validateChunk p = ChunkFate.included) :=
        List.mem_filter.mpr ⟨hp, by simp [hinc]⟩
      rw [hnil] at this
      exact absurd this (List.not_mem_nil p)
    · simp only [if_neg hz]
      constructor
      · intro h; exact absurd h (by simp)
      · intro hall
        exfalso
        apply hz
        have hlen := (summarizeChunks_counts chunks).2
        rw [summarizeChunks_concatList chunks] at hlen
        have hnil : chunks.filter (fun p => validateChunk p = ChunkFate.included) = [] := by
          rw [List.filter_eq_nil_iff]
          intro p hp
          simpa using hall p hp
        rw [hnil] at hlen
        simpa using hlen

/-! # Concat normalization decision (src/main.rs, `concatenate_chunks_impl`)

The task's frame rows contribute `(display_width, display_height)` pairs (only
when both are present) to a set of resolutions; `needs_normalization` is
`resolutions.len() > 1`.  The set is modelled as the deduplicated list of
observed pairs. -/

def resolutionPairsRaw (frames : List (Option Int × Option Int)) : List (Int × Int) :=
  frames.filterMap (fun f => match f with
    | (some w, some h) => some (w, h)
    | _ => none)

def resolutionPairs (frames : List (Option Int × Option Int)) : List (Int × Int) :=
  (resolutionPairsRaw frames).dedup

def needsNormalization (frames : List (Option Int × Option Int)) : Bool :=
  1 < (resolutionPairs frames).length

/-- The fold computing the target dimensions: element-wise maxima over the
resolution set, seeded with `(0, 0)`. -/
def maxDimensions (resolutions : List (Int × Int)) : Int × Int :=
  resolutions.foldl (fun acc p => (max acc.1 p.1, max acc.2 p.2)) (0, 0)

def filterString (w h : Int) : String :=
  "scale=" ++ toString w ++ ":" ++ toString h
    ++ ":force_original_aspect_ratio=decrease,pad=" ++ toString w ++ ":"
    ++ toString h ++ ":(ow-iw)/2:(oh-ih)/2:black"

/-- The argument list handed to the external concatenator: concat demuxer
input, then either stream copy (no frame-rate flags) or a libx264 re-encode
with the scale/pad filter and constant frame rate, then the output path. -/
def buildFfmpegArgs (frames : List (Option Int × Option Int))
    (concatListPath outputPath : String) (fps : Int) : List String :=
  let base := ["-f", "concat", "-safe", "0", "-i", concatListPath]
  let args :=
    if needsNormalization frames then
      let md := maxDimensions (resolutionPairs frames)
      base ++ ["-vf", filterString md.1 md.2, "-c:v", "libx264", "-preset", "medium",
        "-crf", "23", "-r", toString fps, "-fps_mode", "cfr"]
    else
      base ++ ["-c", "copy"]
  args ++ [outputPath]

theorem foldl_max_int_init_le (l : List Int) (a : Int) :
    a ≤ l.foldl (fun m x => max m x) a := by
  induction l generalizing a with
  | nil => simp
  | cons x rest ih => exact le_trans (le_max_left a x) (ih (max a x))

theorem mem_le_foldl_max_int (l : List Int) :
    ∀ a x : Int, x ∈ l → x ≤ l.foldl (fun m x => max m x) a := by
  induction l with
  | nil => intro a x hx; simp at hx
  | cons y rest ih =>
      intro a x hx
      rcases List.mem_cons.mp hx with h | h
      · subst h
        exact le_trans (le_max_right a x) (foldl_max_int_init_le rest (max a x))
      · exact ih (max a y) x h

theorem foldl_max_int_mem (l : List Int) (a : Int) :
    l.foldl (fun m x => max m x) a = a ∨ l.foldl (fun m x => max m x) a ∈ l := by
  induction l generalizing a with
  | nil => simp
  | cons y rest ih =>
      rcases ih (max a y) with h | h
      · rcases max_choice a y with hm | hm
        · left; rw [List.foldl_cons, h, hm]
        · right; rw [List.foldl_cons, h, hm]; simp
      · right; simp [h]

theorem maxDimensions_fst (res : List (Int × Int)) :
    ∀ a : Int × Int,
      (res.foldl (fun acc p => (max acc.1 p.1, max acc.2 p.2)) a).1
        = (res.map Prod.fst).foldl (fun m x => max m x) a.1 := by
  induction res with
  | nil => intro a; rfl
  | cons p rest ih => intro a; simp only [List.foldl_cons, List.map_cons]; exact ih _

theorem maxDimensions_snd (res : List (Int × Int)) :
    ∀ a : Int × Int,
      (res.foldl (fun acc p => (max acc.1 p.1, max acc.2 p.2)) a).2
        = (res.map Prod.snd).foldl (fun m x => max m x) a.2 := by
  induction res with
  | nil => intro a; rfl
  | cons p rest ih => intro a; simp only [List.foldl_cons, List.map_cons]; exact ih _

theorem one_lt_dedup_length_iff (l : List (Int × Int)) :
    1 < l.dedup.length ↔ ∃ a b, a ∈ l ∧ b ∈ l ∧ a ≠ b := by
  constructor
  · intro h
    match hd : l.dedup with
    | [] => rw [hd] at h; simp at h
    | [x] => rw [hd] at h; simp at h
    | x :: y :: rest =>
        have hx : x ∈ l.dedup := by rw [hd]; simp
        have hy : y ∈ l.dedup := by rw [hd]; simp
        have hnd := l.nodup_dedup
        rw [hd, List.nodup_cons] at hnd
        have hxy : x ≠ y := fun he => hnd.1 (by rw [he]; simp)
        exact ⟨x, y, List.mem_dedup.mp hx, List.mem_dedup.mp hy, hxy⟩
  · rintro ⟨a, b, ha, hb, hab⟩
    have ha' : a ∈ l.dedup := List.mem_dedup.mpr ha
    have hb' : b ∈ l.dedup := List.mem_dedup.mpr hb
    match hd : l.dedup with
    | [] => rw [hd] at ha'; simp at ha'
    | [x] =>
        rw [hd] at ha' hb'
        simp at ha' hb'
        exact absurd (ha'.trans hb'.symm) hab
    | x :: y :: rest => simp [hd]

/-- C4: `needs_normalization` is true iff the task's frames contain more than
one distinct `(display_width, display_height)` pair; in copy mode the
concatenator args are exactly the concat input plus `-c copy` (no frame-rate
flags), and in normalization mode they request a libx264 re-encode, preset
medium, CRF 23, the scale-then-pad-with-black filter at the element-wise
maximum dimensions, and constant frame rate `-r fps -fps_mode cfr`. -/
theorem concat_normalization_spec :
    (∀ frames : List (Option Int × Option Int),
      needsNormalization frames = true
        ↔ ∃ a b, a ∈ resolutionPairsRaw frames ∧ b ∈ resolutionPairsRaw frames ∧ a ≠ b)
    ∧ (∀ frames concatListPath outputPath fps,
        needsNormalization frames = false →
          buildFfmpegArgs frames concatListPath outputPath fps
            = ["-f", "concat", "-safe", "0", "-i", concatListPath, "-c", "copy",
                outputPath])
    ∧ (∀ frames concatListPath outputPath fps,
        needsNormalization frames = true →
          buildFfmpegArgs frames concatListPath outputPath fps
            = ["-f", "concat", "-safe", "0", "-i", concatListPath,
                "-vf", filterString (maxDimensions (resolutionPairs frames)).1
                  (maxDimensions (resolutionPairs frames)).2,
                "-c:v", "libx264", "-preset", "medium", "-crf", "23",
                "-r", toString fps, "-fps_mode", "cfr", outputPath])
    ∧ (∀ frames : List (Option Int × Option Int), ∀ p ∈ resolutionPairs frames,
        p.1 ≤ (maxDimensions (resolutionPairs frames)).1
          ∧ p.2 ≤ (maxDimensions (resolutionPairs frames)).2)
    ∧ (∀ frames : List (Option Int × Option Int),
        (maxDimensions (resolutionPairs frames)).1 = 0
          ∨ (maxDimensions (resolutionPairs frames)).1
              ∈ (resolutionPairs frames).map Prod.fst)
    ∧ (∀ frames : List (Option Int × Option Int),
        (maxDimensions (resolutionPairs frames)).2 = 0
          ∨ (maxDimensions (resolutionPairs frames)).2
              ∈ (resolutionPairs frames).map Prod.snd) := by
  refine ⟨?_, ?_, ?_, ?_, ?_, ?_⟩
  · intro frames
    unfold needsNormalization resolutionPairs
    rw [decide_eq_true_iff]
    exact one_lt_dedup_length_iff (resolutionPairsRaw frames)
  · intro frames c o fps h
    unfold buildFfmpegArgs
    rw [h]
    simp
  · intro frames c o fps h
    unfold buildFfmpegArgs
    rw [h]
    simp
  · intro frames p hp
    unfold maxDimensions
    constructor
    · rw [maxDimensions_fst]
      exact mem_le_foldl_max_int _ _ _ (List.mem_map_of_mem Prod.fst hp)
    · rw [maxDimensions_snd]
      exact mem_le_foldl_max_int _ _ _ (List.mem_map_of_mem Prod.snd hp)
  · intro frames
    unfold maxDimensions
    rw [maxDimensions_fst]
    exact foldl_max_int_mem _ _
  · intro frames
    unfold maxDimensions
    rw [maxDimensions_snd]
    exact foldl_max_int_mem _ _

/-! # Per-chunk PTS and packet rescaling (src/encoder.rs)

`VideoEncoder::encode_frame` submits each frame with
`pts = self.frame_count as i64` (the zero-based count of frames already
encoded in the current chunk); `pts_offset` only feeds `get_next_pts`, the
logical frame number handed to the next chunk's encoder.
`VideoEncoder::receive_packets` captures each packet's keyframe flag and raw
`pts`/`dts`, then rescales the timestamps from the encoder time base `1/fps`
to the stream time base `1/90000` before writing. -/

structure EncoderState where
  frameCount : Nat
  ptsOffset : Int
  deriving Repr, DecidableEq

/-- `VideoEncoder::new_with_pts_offset`: a fresh chunk encoder starts with
`frame_count = 0` and the given logical PTS offset. -/
def newEncoderWithPtsOffset (ptsOffset : Int) : EncoderState := ⟨0, ptsOffset⟩

/-- The PTS assignment of `encode_frame`: `let pts = self.frame_count as i64`,
then `self.frame_count += 1`. -/
def encodeFramePts (s : EncoderState) : Int × EncoderState :=
  ((s.frameCount : Int), { s with frameCount := s.frameCount + 1 })

/-- `VideoEncoder::get_next_pts`: `pts_offset + frame_count`. -/
def getNextPts (s : EncoderState) : Int := s.ptsOffset + (s.frameCount : Int)

/-- Submit `n` frames to one chunk's encoder, collecting the submitted PTS. -/
def chunkEncode (s : EncoderState) : Nat → List Int × EncoderState
  | 0 => ([], s)
  | n + 1 =>
      let r := encodeFramePts s
      let rest := chunkEncode r.2 n
      (r.1 :: rest.1, rest.2)

/-- The chunk chain of `process_frames_chunked`: each new chunk gets a fresh
encoder seeded with the previous encoder's `get_next_pts`; returns each
chunk's submitted PTS list and the final logical frame number. -/
def processChunksPts : Int → List Nat → List (List Int) × Int
  | offset, [] => ([], offset)
  | offset, size :: rest =>
      let r := chunkEncode (newEncoderWithPtsOffset offset) size
      let tail := processChunksPts (getNextPts r.2) rest
      (r.1 :: tail.1, tail.2)

structure RawPacket where
  isKey : Bool
  pts : Option Int
  dts : Option Int
  deriving Repr, DecidableEq

structure PacketMeta where
  lastPacketKeyframe : Bool
  lastPacketPts : Option Int
  lastPacketDts : Option Int
  deriving Repr, DecidableEq

/-- ffmpeg's `av_rescale_rnd` with `AV_ROUND_NEAR_INF` (the rounding
`rescale_ts` applies): `(a*b + c/2) / c`, halves rounded away from zero.  The
negative branch divides nonnegative operands, so Lean's `/` agrees with C's
truncating division here. -/
def avRescaleRnd (a b c : Int) : Int :=
  if a < 0 then -(((-a) * b + c / 2) / c) else (a * b + c / 2) / c

/-- `av_rescale_q(a, bq, cq) = av_rescale_rnd(a, bq.num * cq.den, bq.den * cq.num)`. -/
def rescaleQ (t bNum bDen cNum cDen : Int) : Int :=
  avRescaleRnd t (bNum * cDen) (bDen * cNum)

/-- `Packet::rescale_ts(Rational(1, fps), Rational(1, 90000))`. -/
def rescalePacketTs (fps : Nat) (p : RawPacket) : RawPacket :=
  { p with
    pts := p.pts.map (fun t => rescaleQ t 1 (fps : Int) 1 90000)
    dts := p.dts.map (fun t => rescaleQ t 1 (fps : Int) 1 90000) }

/-- One iteration of the `receive_packets` drain loop: capture the raw
keyframe/pts/dts metadata first, then append the rescaled packet to the
written output. -/
def receiveStep (fps : Nat) (acc : PacketMeta × List RawPacket) (p : RawPacket) :
    PacketMeta × List RawPacket :=
  (⟨p.isKey, p.pts, p.dts⟩, acc.2 ++ [rescalePacketTs fps p])

/-- `VideoEncoder::receive_packets`: drain all ready packets. -/
def receivePackets (fps : Nat) (io : PacketMeta) (packets : List RawPacket) :
    PacketMeta × List RawPacket :=
  packets.foldl (receiveStep fps) (io, [])

theorem chunkEncode_spec (n : Nat) :
    ∀ (c : Nat) (off : Int),
      (chunkEncode ⟨c, off⟩ n).1 = (List.range n).map (fun k => ((c + k : Nat) : Int))
      ∧ (chunkEncode ⟨c, off⟩ n).2 = ⟨c + n, off⟩ := by
  induction n with
  | zero => intro c off; simp [chunkEncode]
  | succ n ih =>
      intro c off
      simp only [chunkEncode, encodeFramePts]
      obtain ⟨ih1, ih2⟩ := ih (c + 1) off
      refine ⟨?_, ?_⟩
      · rw [ih1, List.range_succ_eq_map, List.map_cons, List.map_map]
        simp only [Nat.add_zero, List.cons.injEq]
        refine ⟨by trivial, ?_⟩
        apply List.map_congr_left
        intro k _
        simp only [Function.comp_apply]
        congr 1
        omega
      · rw [ih2]
        congr 1
        omega

theorem receivePackets_foldl (fps : Nat) (packets : List RawPacket) :
    ∀ (io : PacketMeta) (acc : List RawPacket),
      packets.foldl (receiveStep fps) (io, acc)
        = ((match packets.getLast? with
            | none => io
            | some p => ⟨p.isKey, p.pts, p.dts⟩),
           acc ++ packets.map (rescalePacketTs fps)) := by
  induction packets with
  | nil => intro io acc; simp
  | cons p rest ih =>
      intro io acc
      rw [List.foldl_cons]
      show rest.foldl (receiveStep fps) (⟨p.isKey, p.pts, p.dts⟩, acc ++ [rescalePacketTs fps p]) = _
      rw [ih]
      cases rest with
      | nil => simp
      | cons q t =>
          simp only [List.getLast?_cons_cons, List.map_cons, List.append_assoc,
            List.singleton_append]
          cases hql : (q :: t).getLast? with
          | none => simp at hql
          | some r => simp [hql]

/-- C5: (1) every frame is submitted to the encoder with
`pts = frame_count_within_current_chunk`, so each chunk's submitted PTS
sequence is exactly `0, 1, …, size-1` regardless of `pts_offset`, and the
threaded `pts_offset` ends at the initial offset plus the total frame count
(a logical frame number only); (2) `receive_packets` writes every drained
packet with its timestamps rescaled from the encoder time base `1/fps` to the
stream time base `1/90000`, capturing the keyframe flag and the raw `pts`/`dts`
of the last packet before rescaling; (3) when `fps` divides 90000 the rescale
is the exact factor `90000/fps`. -/
theorem pts_restart_and_rescale_spec :
    (∀ (sizes : List Nat) (offset : Int),
      (processChunksPts offset sizes).1
          = sizes.map (fun s => (List.range s).map Int.ofNat)
      ∧ (processChunksPts offset sizes).2 = offset + (sizes.sum : Int))
    ∧ (∀ (fps : Nat) (io : PacketMeta) (packets : List RawPacket),
        (receivePackets fps io packets).2 = packets.map (rescalePacketTs fps)
        ∧ (receivePackets fps io packets).1
            = (match packets.getLast? with
               | none => io
               | some p => ⟨p.isKey, p.pts, p.dts⟩))
    ∧ (∀ (t : Int) (fps : Nat), 0 ≤ t → 0 < fps → (fps : Int) ∣ 90000 →
        rescaleQ t 1 (fps : Int) 1 90000 = t * (90000 / (fps : Int))) := by
  refine ⟨?_, ?_, ?_⟩
  · intro sizes
    induction sizes with
    | nil => intro offset; simp [processChunksPts]
    | cons size rest ih =>
        intro offset
        simp only [processChunksPts, newEncoderWithPtsOffset]
        obtain ⟨h1, h2⟩ := chunkEncode_spec size 0 offset
        obtain ⟨ih1, ih2⟩ := ih (getNextPts (chunkEncode ⟨0, offset⟩ size).2)
        refine ⟨?_, ?_⟩
        · rw [ih1, h1, List.map_cons]
          congr 1
          apply List.map_congr_left
          intro k _
          simp
        · rw [ih2, h2]
          unfold getNextPts
          simp only [List.sum_cons]
          push_cast
          ring
  · intro fps io packets
    unfold receivePackets
    rw [receivePackets_foldl]
    simp
  · intro t fps ht hf hdvd
    unfold rescaleQ avRescaleRnd
    rw [if_neg (not_lt.mpr (by positivity : (0 : Int) ≤ t))]
    obtain ⟨q, hq⟩ := hdvd
    have hfne : (fps : Int) ≠ 0 := by positivity
    have hqdiv : (90000 : Int) / (fps : Int) = q := by
      rw [hq]
      exact Int.mul_ediv_cancel_left q hfne
    rw [one_mul, mul_one, hqdiv]
    have hrw : t * 90000 + (fps : Int) / 2
        = (fps : Int) / 2 + (t * q) * (fps : Int) := by
      rw [hq]; ring
    rw [hrw, Int.add_mul_ediv_right _ _ hfne]
    have hf' : (0 : Int) < (fps : Int) := by exact_mod_cast hf
    have hhalf : (fps : Int) / 2 / (fps : Int) = 0 := by
      apply Int.ediv_eq_zero_of_lt
      · omega
      · omega
    rw [hhalf]
    ring

/-! # Runtime encoder recovery (src/encoder.rs, `try_recover_encoder`)

The platform priority lists (lower number = higher priority), the availability
filter of `get_available_encoders`, and the single-attempt hot-swap recovery.
External facts — which encoder names the codec library reports available and
whether a single `try_init_encoder_once` succeeds — are oracle inputs. -/

structure EncBackend where
  name : String
  priority : Nat
  deriving Repr, DecidableEq

inductive EncErr where
  | encoderRuntimeFailure
  | encodingError
  deriving Repr, DecidableEq

def encoderPriorityListWindows : List EncBackend :=
  [⟨"h264_nvenc", 0⟩, ⟨"h264_qsv", 1⟩, ⟨"h264_amf", 2⟩, ⟨"libx264", 10⟩, ⟨"h264", 11⟩]

def encoderPriorityListMacos : List EncBackend :=
  [⟨"h264_videotoolbox", 0⟩, ⟨"libx264", 10⟩, ⟨"h264", 11⟩]

def encoderPriorityListLinux : List EncBackend :=
  [⟨"h264_vaapi", 0⟩, ⟨"h264_nvenc", 1⟩, ⟨"libx264", 10⟩, ⟨"h264", 11⟩]

/-- `get_available_encoders`: keep, in priority order, the backends the codec
library reports available. -/
def getAvailableEncoders (priorityList : List EncBackend) (avail : String → Bool) :
    List EncBackend :=
  priorityList.filter (fun e => avail e.name)

/-- `VideoEncoder::try_recover_encoder`: find the next available backend whose
priority number is strictly greater (strictly lower priority) than the current
one; initialize it with a single `try_init_encoder_once` attempt (no retries
during recording); on success hot-swap to it, otherwise — or when no such
backend exists — surface `EncoderRuntimeFailure`. -/
def tryRecoverEncoder (available : List EncBackend) (currentPriority : Nat)
    (initOnceOk : String → Bool) : Except EncErr EncBackend :=
  match available.find? (fun e => currentPriority < e.priority) with
  | some fb =>
      if initOnceOk fb.name then Except.ok fb
      else Except.error EncErr.encoderRuntimeFailure
  | none => Except.error EncErr.encoderRuntimeFailure

inductive SendOutcome where
  | sentDirect
  | sentAfterRecovery (fb : EncBackend)
  deriving Repr, DecidableEq

/-- The failure-relevant control flow of `encode_frame`: `send_frame` errors
get exactly one `try_recover_encoder` invocation followed by one resend of the
failing frame; then `receive_packets()?` drains and writes the ready packets.
A failing `receive_packet` merely ends the drain loop, but a failing
`write_interleaved` propagates as `EncodingError` — with no recovery attempt
(`drainOk` is whether the drain's write pass succeeds).  The second component
counts how many times `try_recover_encoder` was invoked. -/
def encodeFrameFull (available : List EncBackend) (currentPriority : Nat)
    (initOnceOk : String → Bool) (sendOk resendOk drainOk : Bool) :
    Except EncErr SendOutcome × Nat :=
  if sendOk then
    if drainOk then (Except.ok SendOutcome.sentDirect, 0)
    else (Except.error EncErr.encodingError, 0)
  else
    match tryRecoverEncoder available currentPriority initOnceOk with
    | Except.error e => (Except.error e, 1)
    | Except.ok fb =>
        if resendOk then
          if drainOk then (Except.ok (SendOutcome.sentAfterRecovery fb), 1)
          else (Except.error EncErr.encodingError, 1)
        else (Except.error EncErr.encoderRuntimeFailure, 1)

theorem find_first_gt_priority (cur : Nat) :
    ∀ (l : List EncBackend) (fb : EncBackend),
      l.Pairwise (fun a b => a.priority ≤ b.priority) →
      l.find? (fun e => cur < e.priority) = some fb →
      fb ∈ l ∧ cur < fb.priority
        ∧ ∀ e ∈ l, cur < e.priority → fb.priority ≤ e.priority := by
  intro l
  induction l with
  | nil => intro fb _ h; simp at h
  | cons a rest ih =>
      intro fb hs h
      by_cases ha : cur < a.priority
      · rw [List.find?_cons_of_pos _ (by simpa using ha)] at h
        obtain rfl : a = fb := by injection h
        refine ⟨List.mem_cons_self a rest, ha, ?_⟩
        intro e he _
        rcases List.mem_cons.mp he with rfl | he'
        · exact le_refl _
        · exact (List.pairwise_cons.mp hs).1 e he'
      · rw [List.find?_cons_of_neg _ (by simpa using ha)] at h
        obtain ⟨h1, h2, h3⟩ := ih fb (List.pairwise_cons.mp hs).2 h
        refine ⟨List.mem_cons_of_mem a h1, h2, ?_⟩
        intro e he hce
        rcases List.mem_cons.mp he with rfl | he'
        · exact absurd hce ha
        · exact h3 e he' hce

/-- Counterexample to C6 as stated: the claim also covers packet-drain
failures, but the code recovers only on `send_frame` failure.  With the Linux
backend list, current priority 0 and every backend initializable, a frame
whose send succeeds but whose drain write fails yields `EncodingError` with
zero `try_recover_encoder` invocations — even though a lower-priority backend
(`h264_nvenc`, priority 1) was available and would have been swapped in — and
the surfaced error is not `EncoderRuntimeFailure`. -/
theorem encoder_drain_no_recovery :
    encodeFrameFull encoderPriorityListLinux 0 (fun _ => true) true true false
      = (Except.error EncErr.encodingError, 0)
    ∧ tryRecoverEncoder encoderPriorityListLinux 0 (fun _ => true)
        = Except.ok ⟨"h264_nvenc", 1⟩
    ∧ EncErr.encodingError ≠ EncErr.encoderRuntimeFailure := by
  refine ⟨rfl, rfl, by decide⟩

/-- C6 (amended): only a mid-recording `send_frame` failure triggers recovery,
and then exactly one attempt: among the available backends (the priority list
filtered by availability, which preserves the ascending priority order the
platform lists satisfy) the first with priority number strictly greater than
the current backend's is initialized once with no retries, swapped in, and the
failing frame is resent once; if no lower-priority backend is available or the
single init attempt or the resend fails, `EncoderRuntimeFailure` is surfaced.
A packet-drain write failure triggers no recovery: it propagates unchanged as
`EncodingError` (a failing `receive_packet` merely ends the drain loop). -/
theorem encoder_recovery_amended_spec :
    (∀ (plist : List EncBackend) (avail : String → Bool),
      plist.Pairwise (fun a b => a.priority ≤ b.priority) →
      (getAvailableEncoders plist avail).Pairwise (fun a b => a.priority ≤ b.priority))
    ∧ encoderPriorityListWindows.Pairwise (fun a b => a.priority ≤ b.priority)
    ∧ encoderPriorityListMacos.Pairwise (fun a b => a.priority ≤ b.priority)
    ∧ encoderPriorityListLinux.Pairwise (fun a b => a.priority ≤ b.priority)
    ∧ (∀ (available : List EncBackend) (cur : Nat) (initOk : String → Bool)
        (fb : EncBackend),
        available.Pairwise (fun a b => a.priority ≤ b.priority) →
        tryRecoverEncoder available cur initOk = Except.ok fb →
        fb ∈ available ∧ cur < fb.priority ∧ initOk fb.name = true
          ∧ ∀ e ∈ available, cur < e.priority → fb.priority ≤ e.priority)
    ∧ (∀ (available : List EncBackend) (cur : Nat) (initOk : String → Bool),
        (∀ e ∈ available, e.priority ≤ cur) →
        tryRecoverEncoder available cur initOk
          = Except.error EncErr.encoderRuntimeFailure)
    ∧ (∀ (available : List EncBackend) (cur : Nat) (initOk : String → Bool)
        (fb : EncBackend),
        available.find? (fun e => cur < e.priority) = some fb →
        initOk fb.name = false →
        tryRecoverEncoder available cur initOk
          = Except.error EncErr.encoderRuntimeFailure)
    ∧ (∀ available cur initOk resendOk,
        encodeFrameFull available cur initOk true resendOk true
          = (Except.ok SendOutcome.sentDirect, 0))
    ∧ (∀ available cur initOk resendOk,
        encodeFrameFull available cur initOk true resendOk false
          = (Except.error EncErr.encodingError, 0))
    ∧ (∀ available cur initOk fb,
        tryRecoverEncoder available cur initOk = Except.ok fb →
        encodeFrameFull available cur initOk false true true
          = (Except.ok (SendOutcome.sentAfterRecovery fb), 1)
        ∧ encodeFrameFull available cur initOk false true false
          = (Except.error EncErr.encodingError, 1)
        ∧ ∀ drainOk, encodeFrameFull available cur initOk false false drainOk
          = (Except.error EncErr.encoderRuntimeFailure, 1))
    ∧ (∀ available cur initOk resendOk drainOk e,
        tryRecoverEncoder available cur initOk = Except.error e →
        encodeFrameFull available cur initOk false resendOk drainOk
          = (Except.error e, 1)) := by
  refine ⟨?_, by decide, by decide, by decide, ?_, ?_, ?_, ?_, ?_, ?_, ?_⟩
  · intro plist avail hs
    exact List.Pairwise.sublist (List.filter_sublist plist) hs
  · intro available cur initOk fb hs h
    unfold tryRecoverEncoder at h
    cases hf : available.find? (fun e => cur < e.priority) with
    | none => rw [hf] at h; exact absurd h (by simp)
    | some fb' =>
        rw [hf] at h
        by_cases hi : initOk fb'.name = true
        · simp only [hi, if_true] at h
          have heq : fb' = fb := by simpa using h
          subst heq
          obtain ⟨h1, h2, h3⟩ := find_first_gt_priority cur available fb' hs hf
          exact ⟨h1, h2, hi, h3⟩
        · simp [hi] at h
  · intro available cur initOk hall
    unfold tryRecoverEncoder
    have hf : available.find? (fun e => cur < e.priority) = none := by
      rw [List.find?_eq_none]
      intro e he
      simpa using not_lt.mpr (hall e he)
    rw [hf]
  · intro available cur initOk fb hf hi
    unfold tryRecoverEncoder
    rw [hf]
    simp [hi]
  · intro available cur initOk resendOk
    unfold encodeFrameFull
    simp
  · intro available cur initOk resendOk
    unfold encodeFrameFull
    simp
  · intro available cur initOk fb h
    unfold encodeFrameFull
    rw [h]
    refine ⟨by simp, by simp, ?_⟩
    intro drainOk
    simp
  · intro available cur initOk resendOk drainOk e h
    unfold encodeFrameFull
    rw [h]
    simp

/-! # RGB → YUV420P conversion (src/encoder.rs, `rgb_to_yuv420p`)

Fixed-point BT.601.  Rust's `>> 8` on `i32` is an arithmetic shift (floor
division by 256) and `as u8` keeps the low 8 bits (`mod 256`).  The Y plane is
written row-major with stride `width`; the U and V planes are 2×2 subsampled,
sampled at each block's top-left pixel, row-major with stride `(width+1)/2`
(the loop emits one entry per even column).  Out-of-range pixel reads are
modelled by `getD _ 0`; the indexing theorems only apply them in bounds. -/

def sar8 (x : Int) : Int := Int.fdiv x 256

def toU8 (x : Int) : Nat := (x % 256).toNat

def clamp255 (x : Int) : Int := min (max x 0) 255

/-- `y_val = ((77*r + 150*g + 29*b) >> 8) as u8`. -/
def yOf (r g b : Int) : Nat := toU8 (sar8 (77 * r + 150 * g + 29 * b))

/-- `u_val = (((-43*r - 85*g + 128*b) >> 8) + 128).clamp(0, 255) as u8`. -/
def uOf (r g b : Int) : Nat := toU8 (clamp255 (sar8 (-43 * r - 85 * g + 128 * b) + 128))

/-- `v_val = (((128*r - 107*g - 21*b) >> 8) + 128).clamp(0, 255) as u8`. -/
def vOf (r g b : Int) : Nat := toU8 (clamp255 (sar8 (128 * r - 107 * g - 21 * b) + 128))

def rgbAt (rgb : List Nat) (idx : Nat) : Int := ((rgb.getD idx 0 : Nat) : Int)

/-- The Y loop: for each row `y`, each column `x`, write
`yOf` of the pixel at `rgb_idx = y * width * 3 + x * 3`. -/
def yPlane (rgb : List Nat) (width height : Nat) : List Nat :=
  (List.range height).flatMap (fun y =>
    (List.range width).map (fun x =>
      yOf (rgbAt rgb (y * width * 3 + x * 3))
        (rgbAt rgb (y * width * 3 + x * 3 + 1))
        (rgbAt rgb (y * width * 3 + x * 3 + 2))))

/-- The U/V loop: rows `y` in steps of 2, columns `x` in steps of 2, writing
one entry per 2×2 block from the block's top-left pixel. -/
def uvPlane (f : Int → Int → Int → Nat) (rgb : List Nat) (width height : Nat) :
    List Nat :=
  (List.range ((height + 1) / 2)).flatMap (fun halfY =>
    (List.range ((width + 1) / 2)).map (fun halfX =>
      f (rgbAt rgb ((2 * halfY) * width * 3 + (2 * halfX) * 3))
        (rgbAt rgb ((2 * halfY) * width * 3 + (2 * halfX) * 3 + 1))
        (rgbAt rgb ((2 * halfY) * width * 3 + (2 * halfX) * 3 + 2))))

def uPlane (rgb : List Nat) (width height : Nat) : List Nat := uvPlane uOf rgb width height

def vPlane (rgb : List Nat) (width height : Nat) : List Nat := uvPlane vOf rgb width height

theorem flatMap_rows_length {α : Type} (f : Nat → Nat → α) (w : Nat) :
    ∀ h : Nat,
      ((List.range h).flatMap (fun r => (List.range w).map (f r))).length = h * w := by
  intro h
  induction h with
  | zero => simp
  | succ h ih =>
      rw [List.range_succ, List.flatMap_append]
      simp only [List.length_append, ih]
      simp [Nat.succ_mul]

theorem flatMap_rows_get {α : Type} (f : Nat → Nat → α) (w : Nat) :
    ∀ (h x y : Nat), x < w → y < h →
      ((List.range h).flatMap (fun r => (List.range w).map (f r)))[y * w + x]?
        = some (f y x) := by
  intro h
  induction h with
  | zero => intro x y _ hy; omega
  | succ h ih =>
      intro x y hx hy
      rw [List.range_succ, List.flatMap_append]
      by_cases hyh : y < h
      · have hlen : y * w + x
            < ((List.range h).flatMap fun r => List.map (f r) (List.range w)).length := by
          rw [flatMap_rows_length]
          have h1 : y + 1 ≤ h := hyh
          calc y * w + x < y * w + w := by omega
            _ = (y + 1) * w := by ring
            _ ≤ h * w := Nat.mul_le_mul_right w h1
        rw [List.getElem?_append, if_pos hlen]
        exact ih x y hx hyh
      · have hyeq : y = h := by omega
        subst hyeq
        rw [List.getElem?_append_right]
        · rw [flatMap_rows_length]
          simp only [List.flatMap_cons, List.flatMap_nil, List.append_nil]
          have hidx : y * w + x - y * w = x := by omega
          rw [hidx, List.getElem?_map, List.getElem?_range hx]
          rfl
        · rw [flatMap_rows_length]
          omega

theorem sar8_eq (x : Int) : sar8 x = x / 256 := Int.fdiv_eq_ediv x (by norm_num)

/-- Modelled from the spec: the decoder-side fixed-point BT.601 inverse used by
the round-trip property ("The RGB→YUV→RGB round-trip using the core's
fixed-point coefficients"); the repository contains no YUV→RGB code — decoding
is the external codec's.  `R = Y + 1.402(V-128)`, `G = Y - 0.344(U-128) -
0.714(V-128)`, `B = Y + 1.772(U-128)`, 8-bit fixed point, clamped to 0..255. -/
def invRgbOfYuv (y u v : Int) : Int × Int × Int :=
  (clamp255 (y + sar8 (359 * (v - 128))),
    clamp255 (y - sar8 (88 * (u - 128) + 183 * (v - 128))),
    clamp255 (y + sar8 (454 * (u - 128))))

theorem yOf_gray (v : Int) (h0 : 0 ≤ v) (h255 : v ≤ 255) : (yOf v v v : Int) = v := by
  unfold yOf toU8
  rw [sar8_eq]
  have h1 : (77 * v + 150 * v + 29 * v) / 256 = v := by omega
  rw [h1, Int.toNat_of_nonneg (by omega)]
  omega

theorem uOf_gray (v : Int) : uOf v v v = 128 := by
  unfold uOf
  rw [sar8_eq]
  have h1 : (-43 * v - 85 * v + 128 * v) / 256 = 0 := by omega
  rw [h1]
  decide

theorem vOf_gray (v : Int) : vOf v v v = 128 := by
  unfold vOf
  rw [sar8_eq]
  have h1 : (128 * v - 107 * v - 21 * v) / 256 = 0 := by omega
  rw [h1]
  decide

theorem clamp255_id (x : Int) (h0 : 0 ≤ x) (h255 : x ≤ 255) : clamp255 x = x := by
  unfold clamp255
  rw [max_eq_left h0, min_eq_left h255]

/-- C7: (1) the Y plane holds `Y = (77R+150G+29B) >> 8` for every pixel, and
the U/V planes hold `U = ((-43R-85G+128B) >> 8)+128`,
`V = ((128R-107G-21B) >> 8)+128`, clamped to 0..255, one entry per 2×2 block
sampled at the block's top-left pixel; (2) the clamp keeps every chroma value
in 0..255; (3) for every uniform gray input `R=G=B=v` the conversion gives
exactly `Y=v, U=V=128` and the (spec-modelled) fixed-point inverse returns
exactly `(v,v,v)`, so the round-trip per-channel error is 0 ≤ 2. -/
theorem rgb_to_yuv420p_spec :
    (∀ (rgb : List Nat) (width height x y : Nat), x < width → y < height →
      (yPlane rgb width height)[y * width + x]?
        = some (yOf (rgbAt rgb (y * width * 3 + x * 3))
            (rgbAt rgb (y * width * 3 + x * 3 + 1))
            (rgbAt rgb (y * width * 3 + x * 3 + 2))))
    ∧ (∀ (rgb : List Nat) (width height halfX halfY : Nat),
        halfX < (width + 1) / 2 → halfY < (height + 1) / 2 →
        (uPlane rgb width height)[halfY * ((width + 1) / 2) + halfX]?
          = some (uOf (rgbAt rgb ((2 * halfY) * width * 3 + (2 * halfX) * 3))
              (rgbAt rgb ((2 * halfY) * width * 3 + (2 * halfX) * 3 + 1))
              (rgbAt rgb ((2 * halfY) * width * 3 + (2 * halfX) * 3 + 2)))
        ∧ (vPlane rgb width height)[halfY * ((width + 1) / 2) + halfX]?
          = some (vOf (rgbAt rgb ((2 * halfY) * width * 3 + (2 * halfX) * 3))
              (rgbAt rgb ((2 * halfY) * width * 3 + (2 * halfX) * 3 + 1))
              (rgbAt rgb ((2 * halfY) * width * 3 + (2 * halfX) * 3 + 2))))
    ∧ (∀ x : Int, 0 ≤ clamp255 x ∧ clamp255 x ≤ 255)
    ∧ (∀ v : Int, 0 ≤ v → v ≤ 255 →
        (yOf v v v : Int) = v ∧ uOf v v v = 128 ∧ vOf v v v = 128
        ∧ invRgbOfYuv ((yOf v v v : Nat) : Int) ((uOf v v v : Nat) : Int)
            ((vOf v v v : Nat) : Int) = (v, v, v)
        ∧ |(invRgbOfYuv ((yOf v v v : Nat) : Int) ((uOf v v v : Nat) : Int)
              ((vOf v v v : Nat) : Int)).1 - v| ≤ 2
        ∧ |(invRgbOfYuv ((yOf v v v : Nat) : Int) ((uOf v v v : Nat) : Int)
              ((vOf v v v : Nat) : Int)).2.1 - v| ≤ 2
        ∧ |(invRgbOfYuv ((yOf v v v : Nat) : Int) ((uOf v v v : Nat) : Int)
              ((vOf v v v : Nat) : Int)).2.2 - v| ≤ 2) := by
  refine ⟨?_, ?_, ?_, ?_⟩
  · intro rgb width height x y hx hy
    exact flatMap_rows_get
      (fun y x => yOf (rgbAt rgb (y * width * 3 + x * 3))
        (rgbAt rgb (y * width * 3 + x * 3 + 1))
        (rgbAt rgb (y * width * 3 + x * 3 + 2))) width height x y hx hy
  · intro rgb width height halfX halfY hx hy
    constructor
    · exact flatMap_rows_get
        (fun halfY halfX => uOf (rgbAt rgb ((2 * halfY) * width * 3 + (2 * halfX) * 3))
          (rgbAt rgb ((2 * halfY) * width * 3 + (2 * halfX) * 3 + 1))
          (rgbAt rgb ((2 * halfY) * width * 3 + (2 * halfX) * 3 + 2)))
        ((width + 1) / 2) ((height + 1) / 2) halfX halfY hx hy
    · exact flatMap_rows_get
        (fun halfY halfX => vOf (rgbAt rgb ((2 * halfY) * width * 3 + (2 * halfX) * 3))
          (rgbAt rgb ((2 * halfY) * width * 3 + (2 * halfX) * 3 + 1))
          (rgbAt rgb ((2 * halfY) * width * 3 + (2 * halfX) * 3 + 2)))
        ((width + 1) / 2) ((height + 1) / 2) halfX halfY hx hy
  · intro x
    unfold clamp255
    exact ⟨le_min (le_max_right x 0) (by norm_num), min_le_right _ _⟩
  · intro v h0 h255
    have hy := yOf_gray v h0 h255
    have hu := uOf_gray v
    have hv := vOf_gray v
    have hinv : invRgbOfYuv ((yOf v v v : Nat) : Int) ((uOf v v v : Nat) : Int)
        ((vOf v v v : Nat) : Int) = (v, v, v) := by
      rw [hu, hv, hy]
      unfold invRgbOfYuv
      rw [sar8_eq, sar8_eq, sar8_eq]
      simp only [Nat.cast_ofNat, sub_self, mul_zero, add_zero, Int.zero_ediv,
        sub_zero, zero_add]
      rw [clamp255_id v h0 h255]
    refine ⟨hy, hu, hv, hinv, ?_, ?_, ?_⟩ <;> rw [hinv] <;> simp

/-! # Monitor switch policy (src/capture.rs, `MonitorSwitchDetector`)

State: `current_display`, `pending_display`, `pending_count`.  A step is one
call to `check_for_switch`; its observation is either "not enough time has
elapsed since the last check" (the interval gate), "cursor/display could not be
resolved", or the display index under the cursor.  Wall-clock time itself is
external, so the gate outcome is an input. -/

structure Detector where
  currentDisplay : Nat
  pendingDisplay : Option Nat
  pendingCount : Nat
  deriving Repr, DecidableEq

inductive SwitchObs where
  | notElapsed
  | noCursor
  | display (d : Nat)
  deriving Repr, DecidableEq

/-- `MonitorSwitchDetector::check_for_switch`.  Below-interval steps and
unresolved cursor positions return `none` and leave the decision state alone;
a sighting of the current display resets the pending state; a second
consecutive sighting of the same other display commits the switch. -/
def checkForSwitch (s : Detector) : SwitchObs → Option Nat × Detector
  | SwitchObs.notElapsed => (none, s)
  | SwitchObs.noCursor => (none, s)
  | SwitchObs.display d =>
      if d = s.currentDisplay then
        (none, { s with pendingDisplay := none, pendingCount := 0 })
      else if some d = s.pendingDisplay then
        let c := s.pendingCount + 1
        if 2 ≤ c then
          (some d, { currentDisplay := d, pendingDisplay := none, pendingCount := 0 })
        else (none, { s with pendingCount := c })
      else (none, { s with pendingDisplay := some d, pendingCount := 1 })

/-- Run a sequence of `check_for_switch` steps, collecting each step's
returned value. -/
def runDetector (s : Detector) : List SwitchObs → List (Option Nat) × Detector
  | [] => ([], s)
  | o :: rest =>
      let r := checkForSwitch s o
      let tail := runDetector r.2 rest
      (r.1 :: tail.1, tail.2)

/-- C8: (1) a step gated by `check_interval` (or with no resolvable cursor
display) returns `none` and leaves the state unchanged; (2) a switch
`some d` is returned only when the incoming state already holds
`pending_display = d` with a positive count and `d` differs from the current
display — and a pending state for `d` can only have been set by an earlier
sighting of `d`; (3) a single sighting of a display that is not the pending
one (in particular any first, transient sighting) never switches; (4) a
sighting of the current display resets the pending state; (5) from a clean
state, two consecutive interval-gated sightings `d1, d2` switch iff
`d1 = d2 ≠ current`, with no intervening sighting of the current display. -/
theorem monitor_switch_spec :
    (∀ s : Detector, checkForSwitch s SwitchObs.notElapsed = (none, s)
      ∧ checkForSwitch s SwitchObs.noCursor = (none, s))
    ∧ (∀ (s : Detector) (o : SwitchObs) (d : Nat),
        (checkForSwitch s o).1 = some d →
        o = SwitchObs.display d ∧ s.pendingDisplay = some d
          ∧ 1 ≤ s.pendingCount ∧ d ≠ s.currentDisplay
          ∧ (checkForSwitch s o).2
              = ⟨d, none, 0⟩)
    ∧ (∀ (s : Detector) (d : Nat),
        s.pendingDisplay ≠ some d → (checkForSwitch s (SwitchObs.display d)).1 = none)
    ∧ (∀ (s : Detector) (o : SwitchObs) (d : Nat),
        (checkForSwitch s o).2.pendingDisplay = some d →
        s.pendingDisplay = some d ∨ o = SwitchObs.display d)
    ∧ (∀ s : Detector,
        (checkForSwitch s (SwitchObs.display s.currentDisplay)).1 = none
        ∧ (checkForSwitch s (SwitchObs.display s.currentDisplay)).2
            = { s with pendingDisplay := none, pendingCount := 0 })
    ∧ (∀ (cur d1 d2 : Nat),
        (runDetector ⟨cur, none, 0⟩
            [SwitchObs.display d1, SwitchObs.display d2]).1.getLast?
          = some (some d2)
          ↔ (d1 = d2 ∧ d2 ≠ cur)) := by
  refine ⟨?_, ?_, ?_, ?_, ?_, ?_⟩
  · intro s; exact ⟨rfl, rfl⟩
  · intro s o d h
    cases o with
    | notElapsed => simp [checkForSwitch] at h
    | noCursor => simp [checkForSwitch] at h
    | display d' =>
        simp only [checkForSwitch] at h ⊢
        by_cases h1 : d' = s.currentDisplay
        · rw [if_pos h1] at h; simp at h
        · rw [if_neg h1] at h ⊢
          by_cases h2 : some d' = s.pendingDisplay
          · rw [if_pos h2] at h ⊢
            by_cases h3 : 2 ≤ s.pendingCount + 1
            · rw [if_pos h3] at h ⊢
              simp only at h
              obtain rfl : d' = d := by simpa using h
              exact ⟨rfl, h2.symm, by omega, h1, by simp⟩
            · rw [if_neg h3] at h; simp at h
          · rw [if_neg h2] at h; simp at h
  · intro s d h
    simp only [checkForSwitch]
    by_cases h1 : d = s.currentDisplay
    · rw [if_pos h1]
    · rw [if_neg h1, if_neg (fun hc => h hc.symm)]
  · intro s o d h
    cases o with
    | notElapsed => exact Or.inl h
    | noCursor => exact Or.inl h
    | display d' =>
        simp only [checkForSwitch] at h
        by_cases h1 : d' = s.currentDisplay
        · rw [if_pos h1] at h; simp at h
        · rw [if_neg h1] at h
          by_cases h2 : some d' = s.pendingDisplay
          · rw [if_pos h2] at h
            by_cases h3 : 2 ≤ s.pendingCount + 1
            · rw [if_pos h3] at h; simp at h
            · rw [if_neg h3] at h
              simp only at h
              exact Or.inl h
          · rw [if_neg h2] at h
            simp only at h
            right
            have hd : d' = d := by simpa using h
            rw [hd]
  · intro s
    simp [checkForSwitch]
  · intro cur d1 d2
    constructor
    · intro h
      by_cases h1 : d1 = cur
      · subst h1
        by_cases h2 : d2 = d1
        · subst h2
          simp [runDetector, checkForSwitch] at h
        · simp [runDetector, checkForSwitch, h2] at h
      · by_cases h3 : d1 = d2
        · subst h3
          exact ⟨rfl, h1⟩
        · have h3' : ¬d2 = d1 := fun hc => h3 hc.symm
          by_cases h2 : d2 = cur
          · subst h2
            simp [runDetector, checkForSwitch, h1, h3'] at h
          · simp [runDetector, checkForSwitch, h1, h2, h3'] at h
    · rintro ⟨rfl, hne⟩
      simp [runDetector, checkForSwitch, hne]

/-! # Display at cursor (src/display_info.rs, `get_display_at_cursor`)

The macOS variant walks the enumerated displays and returns the index of the
first whose bounds contain the cursor under the half-open test, `0` when none
does.  The Windows variant ignores the cursor position and always returns `0`
(and the Windows `get_all_displays_with_bounds` reports every display at
origin `(0, 0)`). -/

structure DisplayBounds where
  index : Nat
  width : Nat
  height : Nat
  x : Int
  y : Int
  deriving Repr, DecidableEq

/-- The half-open point-in-rect test of the macOS loop:
`x_min ≤ cx < x_min + width` and `y_min ≤ cy < y_min + height`. -/
def containsPoint (d : DisplayBounds) (cx cy : Int) : Bool :=
  decide (d.x ≤ cx) && decide (cx < d.x + (d.width : Int))
    && decide (d.y ≤ cy) && decide (cy < d.y + (d.height : Int))

/-- macOS `get_display_at_cursor`: first containing display's index, else 0. -/
def getDisplayAtCursorMac (displays : List DisplayBounds) (cx cy : Int) : Nat :=
  match displays.find? (fun d => containsPoint d cx cy) with
  | some d => d.index
  | none => 0

/-- Windows `get_display_at_cursor`: `Ok(0)` unconditionally. -/
def getDisplayAtCursorWindows (_cx _cy : Int) : Nat := 0

/-- Windows `get_all_displays_with_bounds`: every display is reported with its
size but at origin `(0, 0)`. -/
def windowsDisplayBounds (sizes : List (Nat × Nat)) : List DisplayBounds :=
  sizes.enum.map (fun p => ⟨p.1, p.2.1, p.2.2, 0, 0⟩)

/-- Counterexample to C9 as stated: with two Windows displays of sizes
800×600 and 1920×1080 (both enumerated at origin `(0,0)`), the point
`(1000, 700)` lies only in display 1's rectangle, yet the Windows
implementation returns 0 — not the index of a display containing the point. -/
theorem getDisplayAtCursor_windows_counterexample :
    windowsDisplayBounds [(800, 600), (1920, 1080)]
        = [⟨0, 800, 600, 0, 0⟩, ⟨1, 1920, 1080, 0, 0⟩]
    ∧ containsPoint ⟨1, 1920, 1080, 0, 0⟩ 1000 700 = true
    ∧ containsPoint ⟨0, 800, 600, 0, 0⟩ 1000 700 = false
    ∧ getDisplayAtCursorWindows 1000 700 = 0
    ∧ ¬(∃ d ∈ windowsDisplayBounds [(800, 600), (1920, 1080)],
          containsPoint d 1000 700 = true
            ∧ getDisplayAtCursorWindows 1000 700 = d.index) := by
  refine ⟨by decide, by decide, by decide, rfl, ?_⟩
  rintro ⟨d, hd, hc, hi⟩
  have : d = ⟨1, 1920, 1080, 0, 0⟩ := by
    have hb : windowsDisplayBounds [(800, 600), (1920, 1080)]
        = [⟨0, 800, 600, 0, 0⟩, ⟨1, 1920, 1080, 0, 0⟩] := by decide
    rw [hb] at hd
    rcases List.mem_cons.mp hd with rfl | hd'
    · exact absurd hc (by decide)
    · simpa using hd'
  rw [this] at hi
  exact absurd hi (by decide)

/-- C9 (amended): on macOS, `get_display_at_cursor` returns the index of the
first enumerated display whose rectangle contains the point under the
half-open test `origin ≤ p < origin + extent`, and 0 when no display contains
the point; the Windows implementation always returns 0 regardless of the
cursor position (its enumeration places every display at origin `(0,0)`). -/
theorem getDisplayAtCursor_platform_spec :
    (∀ (d : DisplayBounds) (cx cy : Int),
      containsPoint d cx cy = true
        ↔ (d.x ≤ cx ∧ cx < d.x + (d.width : Int)
            ∧ d.y ≤ cy ∧ cy < d.y + (d.height : Int)))
    ∧ (∀ (displays : List DisplayBounds) (cx cy : Int) (d : DisplayBounds),
        displays.find? (fun d => containsPoint d cx cy) = some d →
        getDisplayAtCursorMac displays cx cy = d.index
          ∧ d ∈ displays ∧ containsPoint d cx cy = true)
    ∧ (∀ (displays : List DisplayBounds) (cx cy : Int),
        (∀ d ∈ displays, containsPoint d cx cy = false) →
        getDisplayAtCursorMac displays cx cy = 0)
    ∧ (∀ cx cy : Int, getDisplayAtCursorWindows cx cy = 0)
    ∧ (∀ (sizes : List (Nat × Nat)), ∀ p ∈ windowsDisplayBounds sizes,
        p.x = 0 ∧ p.y = 0) := by
  refine ⟨?_, ?_, ?_, ?_, ?_⟩
  · intro d cx cy
    unfold containsPoint
    simp [Bool.and_eq_true, decide_eq_true_eq, and_assoc]
  · intro displays cx cy d h
    unfold getDisplayAtCursorMac
    rw [h]
    have hpred : containsPoint d cx cy = true := by
      have h2 := List.find?_some h
      simpa using h2
    exact ⟨rfl, List.mem_of_find?_eq_some h, hpred⟩
  · intro displays cx cy hall
    unfold getDisplayAtCursorMac
    have h : displays.find? (fun d => containsPoint d cx cy) = none := by
      rw [List.find?_eq_none]
      intro d hd
      simp [hall d hd]
    rw [h]
  · intro cx cy
    rfl
  · intro sizes p hp
    unfold windowsDisplayBounds at hp
    obtain ⟨q, _, rfl⟩ := List.mem_map.mp hp
    exact ⟨rfl, rfl⟩

/-! # Cursor overlay (src/capture.rs, `draw_cursor`)

A 19×25 pixel-art glyph (`0` transparent, `1` black border, `2` white fill) is
drawn at the cursor position over a packed-RGB buffer.  Writes are clipped at
the frame edges and guarded by `idx + 2 < len`; each written pixel has all
three bytes set to 0 or to 255. -/

def cursorGlyph : List (List Nat) :=
  [[1, 0, 0, 0, 0, 0, 0, 0, 0, 0, 0, 0, 0, 0, 0, 0, 0, 0, 0],
   [1, 1, 0, 0, 0, 0, 0, 0, 0, 0, 0, 0, 0, 0, 0, 0, 0, 0, 0],
   [1, 2, 1, 0, 0, 0, 0, 0, 0, 0, 0, 0, 0, 0, 0, 0, 0, 0, 0],
   [1, 2, 2, 1, 0, 0, 0, 0, 0, 0, 0, 0, 0, 0, 0, 0, 0, 0, 0],
   [1, 2, 2, 2, 1, 0, 0, 0, 0, 0, 0, 0, 0, 0, 0, 0, 0, 0, 0],
   [1, 2, 2, 2, 2, 1, 0, 0, 0, 0, 0, 0, 0, 0, 0, 0, 0, 0, 0],
   [1, 2, 2, 2, 2, 2, 1, 0, 0, 0, 0, 0, 0, 0, 0, 0, 0, 0, 0],
   [1, 2, 2, 2, 2, 2, 2, 1, 0, 0, 0, 0, 0, 0, 0, 0, 0, 0, 0],
   [1, 2, 2, 2, 2, 2, 2, 2, 1, 0, 0, 0, 0, 0, 0, 0, 0, 0, 0],
   [1, 2, 2, 2, 2, 2, 2, 2, 2, 1, 0, 0, 0, 0, 0, 0, 0, 0, 0],
   [1, 2, 2, 2, 2, 2, 2, 2, 2, 2, 1, 0, 0, 0, 0, 0, 0, 0, 0],
   [1, 2, 2, 2, 2, 2, 2, 2, 2, 2, 2, 1, 0, 0, 0, 0, 0, 0, 0],
   [1, 2, 2, 2, 2, 2, 2, 2, 2, 2, 2, 2, 1, 0, 0, 0, 0, 0, 0],
   [1, 2, 2, 2, 2, 2, 2, 1, 1, 1, 1, 1, 1, 1, 0, 0, 0, 0, 0],
   [1, 2, 2, 2, 1, 2, 2, 1, 0, 0, 0, 0, 0, 0, 0, 0, 0, 0, 0],
   [1, 2, 2, 1, 0, 1, 2, 2, 1, 0, 0, 0, 0, 0, 0, 0, 0, 0, 0],
   [1, 2, 1, 0, 0, 1, 2, 2, 1, 0, 0, 0, 0, 0, 0, 0, 0, 0, 0],
   [1, 1, 0, 0, 0, 0, 1, 2, 2, 1, 0, 0, 0, 0, 0, 0, 0, 0, 0],
   [1, 0, 0, 0, 0, 0, 1, 2, 2, 1, 0, 0, 0, 0, 0, 0, 0, 0, 0],
   [0, 0, 0, 0, 0, 0, 0, 1, 2, 2, 1, 0, 0, 0, 0, 0, 0, 0, 0],
   [0, 0, 0, 0, 0, 0, 0, 1, 2, 2, 1, 0, 0, 0, 0, 0, 0, 0, 0],
   [0, 0, 0, 0, 0, 0, 0, 0, 1, 2, 2, 1, 0, 0, 0, 0, 0, 0, 0],
   [0, 0, 0, 0, 0, 0, 0, 0, 1, 2, 2, 1, 0, 0, 0, 0, 0, 0, 0],
   [0, 0, 0, 0, 0, 0, 0, 0, 0, 1, 2, 1, 0, 0, 0, 0, 0, 0, 0],
   [0, 0, 0, 0, 0, 0, 0, 0, 0, 1, 1, 0, 0, 0, 0, 0, 0, 0, 0]]

def glyphAt (dy dx : Nat) : Nat := (cursorGlyph.getD dy []).getD dx 0

/-- The loop order of `draw_cursor`: `dy` in `0..25`, `dx` in `0..19`. -/
def cursorPairs : List (Nat × Nat) :=
  (List.range 25).flatMap (fun dy => (List.range 19).map (fun dx => (dy, dx)))

/-- Write one pixel's three bytes. -/
def setPixel (data : List Nat) (idx v : Nat) : List Nat :=
  ((data.set idx v).set (idx + 1) v).set (idx + 2) v

/-- One `(dy, dx)` iteration of `draw_cursor`: clip at the frame edges, skip
transparent glyph cells, skip when `idx + 2` would be out of bounds, write
black for glyph value 1 and white for glyph value 2, nothing otherwise. -/
def drawCursorStep (width height : Nat) (cursorX cursorY : Int)
    (data : List Nat) (p : Nat × Nat) : List Nat :=
  let x : Int := cursorX + (p.2 : Int)
  let y : Int := cursorY + (p.1 : Int)
  if x < 0 ∨ y < 0 ∨ (width : Int) ≤ x ∨ (height : Int) ≤ y then data
  else
    let pixel := glyphAt p.1 p.2
    if pixel = 0 then data
    else
      let idx := (y.toNat * width + x.toNat) * 3
      if data.length ≤ idx + 2 then data
      else if pixel = 1 then setPixel data idx 0
      else if pixel = 2 then setPixel data idx 255
      else data

/-- `draw_cursor`. -/
def drawCursor (data : List Nat) (width height : Nat) (cursorX cursorY : Int) :
    List Nat :=
  cursorPairs.foldl (drawCursorStep width height cursorX cursorY) data

/-- Whether the iteration `p = (dy, dx)` writes byte `i` of a buffer of length
`len`. -/
def stepWrites (len width height : Nat) (cursorX cursorY : Int)
    (p : Nat × Nat) (i : Nat) : Bool :=
  let x : Int := cursorX + (p.2 : Int)
  let y : Int := cursorY + (p.1 : Int)
  if x < 0 ∨ y < 0 ∨ (width : Int) ≤ x ∨ (height : Int) ≤ y then false
  else
    let g := glyphAt p.1 p.2
    let idx := (y.toNat * width + x.toNat) * 3
    (g == 1 || g == 2) && decide (idx + 2 < len)
      && (i == idx || i == idx + 1 || i == idx + 2)

/-- The byte value a writing iteration stores. -/
def stepVal (p : Nat × Nat) : Nat := if glyphAt p.1 p.2 = 1 then 0 else 255

/-- Closed form: the overlay value at byte `i`, when `draw_cursor` writes it:
byte `i` belongs to pixel `(px, py) = (i/3 % w, i/3 / w)`; it is written iff
that pixel is inside the frame, inside the 19×25 cursor box at
`(cursorX, cursorY)`, its glyph cell is 1 or 2, and the pixel's three bytes
fit in the buffer. -/
def cursorOverlay (len width height : Nat) (cursorX cursorY : Int) (i : Nat) :
    Option Nat :=
  if width = 0 then none
  else
    let pix := i / 3
    let px := pix % width
    let py := pix / width
    if py < height ∧ cursorX ≤ (px : Int) ∧ (px : Int) < cursorX + 19
        ∧ cursorY ≤ (py : Int) ∧ (py : Int) < cursorY + 25
        ∧ 3 * pix + 2 < len then
      let g := glyphAt ((py : Int) - cursorY).toNat ((px : Int) - cursorX).toNat
      if g = 1 then some 0 else if g = 2 then some 255 else none
    else none

theorem setPixel_length (data : List Nat) (idx v : Nat) :
    (setPixel data idx v).length = data.length := by
  simp [setPixel]

theorem setPixel_get (data : List Nat) (idx v i : Nat) (hlt : idx + 2 < data.length) :
    (setPixel data idx v)[i]?
      = if i = idx ∨ i = idx + 1 ∨ i = idx + 2 then some v else data[i]? := by
  unfold setPixel
  rw [List.getElem?_set, List.getElem?_set, List.getElem?_set]
  simp only [List.length_set]
  by_cases h2 : idx + 2 = i
  · rw [if_pos h2, if_pos (by omega), if_pos (by omega)]
  · rw [if_neg h2]
    by_cases h1 : idx + 1 = i
    · rw [if_pos h1, if_pos (by omega), if_pos (by omega)]
    · rw [if_neg h1]
      by_cases h0 : idx = i
      · rw [if_pos h0, if_pos (by omega), if_pos (by omega)]
      · rw [if_neg h0, if_neg (by omega)]

theorem drawCursorStep_length (w h : Nat) (cx cy : Int) (data : List Nat)
    (p : Nat × Nat) :
    (drawCursorStep w h cx cy data p).length = data.length := by
  simp only [drawCursorStep]
  split
  · rfl
  · split
    · rfl
    · split
      · rfl
      · split
        · simp [setPixel]
        · split
          · simp [setPixel]
          · rfl

theorem drawCursorStep_get (w h : Nat) (cx cy : Int) (data : List Nat)
    (p : Nat × Nat) (i : Nat) :
    (drawCursorStep w h cx cy data p)[i]?
      = if stepWrites data.length w h cx cy p i = true then some (stepVal p)
        else data[i]? := by
  simp only [drawCursorStep, stepWrites, stepVal]
  split
  · simp
  · split
    · next hg0 => simp [hg0]
    · next hg0 =>
        split
        · next hlen => simp [Nat.not_lt.mpr hlen]
        · next hlen =>
            have hlt := Nat.lt_of_not_le hlen
            split
            · next hg1 =>
                rw [setPixel_get _ _ _ _ hlt]
                simp [hg1, hlt, or_assoc]
            · next hg1 =>
                split
                · next hg2 =>
                    rw [setPixel_get _ _ _ _ hlt]
                    simp [hg1, hg2, hlt, or_assoc]
                · next hg2 => simp [hg1, hg2]

theorem foldl_drawCursorStep (w h : Nat) (cx cy : Int) :
    ∀ (L : List (Nat × Nat)) (data : List Nat),
      ((L.foldl (drawCursorStep w h cx cy) data).length = data.length)
      ∧ ∀ i, (L.foldl (drawCursorStep w h cx cy) data)[i]?
          = match L.reverse.find? (fun p => stepWrites data.length w h cx cy p i) with
            | some p => some (stepVal p)
            | none => data[i]? := by
  intro L
  induction L with
  | nil => intro data; exact ⟨rfl, fun i => by simp⟩
  | cons p L ih =>
      intro data
      simp only [List.foldl_cons]
      obtain ⟨ihlen, ihget⟩ := ih (drawCursorStep w h cx cy data p)
      have hsl := drawCursorStep_length w h cx cy data p
      constructor
      · rw [ihlen, hsl]
      · intro i
        rw [ihget i, hsl, List.reverse_cons, List.find?_append]
        cases hf : L.reverse.find? (fun q => stepWrites data.length w h cx cy q i) with
        | some q => simp [Option.or]
        | none =>
            simp only [Option.or, List.find?_singleton]
            rw [drawCursorStep_get]
            by_cases hw : stepWrites data.length w h cx cy p i = true
            · rw [if_pos hw, if_pos hw]
            · rw [if_neg hw, if_neg hw]

theorem glyphAt_ne_zero_bounds (dy dx : Nat) (h : glyphAt dy dx ≠ 0) :
    dy < 25 ∧ dx < 19 := by
  have hlen25 : cursorGlyph.length = 25 := rfl
  constructor
  · by_contra hc
    push_neg at hc
    apply h
    unfold glyphAt
    rw [List.getD_eq_default _ _ (by omega : cursorGlyph.length ≤ dy)]
    simp
  · by_contra hc
    push_neg at hc
    apply h
    unfold glyphAt
    have hrow : (cursorGlyph.getD dy []).length ≤ 19 := by
      by_cases hdy : dy < cursorGlyph.length
      · have hall : ∀ row ∈ cursorGlyph, row.length ≤ 19 := by decide
        apply hall
        rw [List.getD_eq_getElem?_getD, List.getElem?_eq_getElem hdy]
        simp only [Option.getD_some]
        exact List.getElem_mem hdy
      · push_neg at hdy
        rw [List.getD_eq_default _ _ hdy]
        simp
    rw [List.getD_eq_default _ _ (le_trans hrow hc)]

/-- For a byte index `i`, the unique glyph iteration that can write it. -/
def writerPair (w : Nat) (cx cy : Int) (i : Nat) : Nat × Nat :=
  (((i / 3 / w : Nat) - cy : Int).toNat, ((i / 3 % w : Nat) - cx : Int).toNat)

theorem stepWrites_forward (len w h : Nat) (cx cy : Int) (i : Nat) (p : Nat × Nat)
    (hs : stepWrites len w h cx cy p i = true) :
    cursorOverlay len w h cx cy i = some (stepVal p) ∧ p = writerPair w cx cy i := by
  simp only [stepWrites] at hs
  split at hs
  · exact absurd hs (by simp)
  · next hoob =>
      simp only [Bool.and_eq_true, Bool.or_eq_true, beq_iff_eq,
        decide_eq_true_eq] at hs
      obtain ⟨⟨hg, hlen⟩, hi⟩ := hs
      push_neg at hoob
      obtain ⟨hx0, hy0, hxw, hyh⟩ := hoob
      have hgb : p.1 < 25 ∧ p.2 < 19 := by
        apply glyphAt_ne_zero_bounds
        rcases hg with h1 | h2
        · rw [h1]; omega
        · rw [h2]; omega
      have hw0 : 0 < w := by omega
      have hxtn : (cx + (p.2 : Int)).toNat < w := by omega
      have hpix : i / 3 = (cy + (p.1 : Int)).toNat * w + (cx + (p.2 : Int)).toNat := by
        omega
      have hpx : i / 3 % w = (cx + (p.2 : Int)).toNat := by
        rw [hpix, Nat.mul_comm, Nat.mul_add_mod, Nat.mod_eq_of_lt hxtn]
      have hpy : i / 3 / w = (cy + (p.1 : Int)).toNat := by
        rw [hpix, Nat.mul_comm, Nat.mul_add_div hw0, Nat.div_eq_of_lt hxtn,
          Nat.add_zero]
      have hwriter : p = writerPair w cx cy i := by
        unfold writerPair
        rw [hpx, hpy]
        have e1 : ((cy + (p.1 : Int)).toNat - cy : Int).toNat = p.1 := by omega
        have e2 : ((cx + (p.2 : Int)).toNat - cx : Int).toNat = p.2 := by omega
        rw [e1, e2]
      refine ⟨?_, hwriter⟩
      unfold cursorOverlay
      rw [if_neg (by omega : ¬w = 0)]
      have hcond : i / 3 / w < h ∧ cx ≤ ((i / 3 % w : Nat) : Int)
          ∧ ((i / 3 % w : Nat) : Int) < cx + 19
          ∧ cy ≤ ((i / 3 / w : Nat) : Int) ∧ ((i / 3 / w : Nat) : Int) < cy + 25
          ∧ 3 * (i / 3) + 2 < len := by
        rw [hpx, hpy]
        refine ⟨by omega, by omega, by omega, by omega, by omega, by omega⟩
      rw [if_pos hcond]
      have hargs : (((i / 3 / w : Nat) : Int) - cy).toNat = p.1
          ∧ (((i / 3 % w : Nat) : Int) - cx).toNat = p.2 := by
        rw [hpx, hpy]
        constructor <;> omega
      rw [hargs.1, hargs.2]
      unfold stepVal
      rcases hg with h1 | h2
      · rw [if_pos h1, if_pos h1]
      · have hne1 : glyphAt p.1 p.2 ≠ 1 := by rw [h2]; omega
        rw [if_neg hne1, if_pos h2, if_neg hne1]

theorem stepWrites_writer (len w h : Nat) (cx cy : Int) (i : Nat)
    (hw0 : 0 < w)
    (hc1 : i / 3 / w < h) (hc2 : cx ≤ ((i / 3 % w : Nat) : Int))
    (hc4 : cy ≤ ((i / 3 / w : Nat) : Int))
    (hc6 : 3 * (i / 3) + 2 < len)
    (hgor : glyphAt (((i / 3 / w : Nat) : Int) - cy).toNat
        (((i / 3 % w : Nat) : Int) - cx).toNat = 1
      ∨ glyphAt (((i / 3 / w : Nat) : Int) - cy).toNat
          (((i / 3 % w : Nat) : Int) - cx).toNat = 2) :
    stepWrites len w h cx cy (writerPair w cx cy i) i = true := by
  simp only [stepWrites, writerPair]
  have hx : cx + ((((i / 3 % w : Nat) : Int) - cx).toNat : Int)
      = ((i / 3 % w : Nat) : Int) := by omega
  have hyy : cy + ((((i / 3 / w : Nat) : Int) - cy).toNat : Int)
      = ((i / 3 / w : Nat) : Int) := by omega
  have hmod : i / 3 % w < w := Nat.mod_lt _ hw0
  simp only [hx, hyy]
  have hoobneg : ¬(((i / 3 % w : Nat) : Int) < 0 ∨ ((i / 3 / w : Nat) : Int) < 0
      ∨ (w : Int) ≤ ((i / 3 % w : Nat) : Int)
      ∨ (h : Int) ≤ ((i / 3 / w : Nat) : Int)) := by
    push_neg
    exact ⟨Int.natCast_nonneg _, Int.natCast_nonneg _,
      by exact_mod_cast hmod, by exact_mod_cast hc1⟩
  rw [if_neg hoobneg]
  simp only [Int.toNat_natCast]
  have hidx : i / 3 / w * w + i / 3 % w = i / 3 := by
    rw [Nat.mul_comm]; exact Nat.div_add_mod _ _
  simp only [hidx]
  simp only [Bool.and_eq_true, Bool.or_eq_true, beq_iff_eq, decide_eq_true_eq]
  exact ⟨⟨hgor, by omega⟩, by omega⟩

theorem stepWrites_backward (len w h : Nat) (cx cy : Int) (i : Nat)
    (ho : (cursorOverlay len w h cx cy i).isSome = true) :
    stepWrites len w h cx cy (writerPair w cx cy i) i = true
    ∧ cursorOverlay len w h cx cy i = some (stepVal (writerPair w cx cy i))
    ∧ (writerPair w cx cy i).1 < 25 ∧ (writerPair w cx cy i).2 < 19 := by
  simp only [cursorOverlay] at ho ⊢
  by_cases hw : w = 0
  · rw [if_pos hw] at ho; simp at ho
  · rw [if_neg hw] at ho
    by_cases hconds : i / 3 / w < h ∧ cx ≤ ((i / 3 % w : Nat) : Int)
        ∧ ((i / 3 % w : Nat) : Int) < cx + 19
        ∧ cy ≤ ((i / 3 / w : Nat) : Int) ∧ ((i / 3 / w : Nat) : Int) < cy + 25
        ∧ 3 * (i / 3) + 2 < len
    · rw [if_pos hconds] at ho
      rw [if_neg hw, if_pos hconds]
      obtain ⟨hc1, hc2, hc3, hc4, hc5, hc6⟩ := hconds
      have hw0 : 0 < w := Nat.pos_of_ne_zero hw
      have hb1 : (writerPair w cx cy i).1 < 25 := by
        simp only [writerPair]; omega
      have hb2 : (writerPair w cx cy i).2 < 19 := by
        simp only [writerPair]; omega
      by_cases hg1 : glyphAt (((i / 3 / w : Nat) : Int) - cy).toNat
          (((i / 3 % w : Nat) : Int) - cx).toNat = 1
      · refine ⟨stepWrites_writer len w h cx cy i hw0 hc1 hc2 hc4 hc6 (Or.inl hg1),
          ?_, hb1, hb2⟩
        rw [if_pos hg1]
        simp only [stepVal, writerPair]
        rw [if_pos hg1]
      · by_cases hg2 : glyphAt (((i / 3 / w : Nat) : Int) - cy).toNat
            (((i / 3 % w : Nat) : Int) - cx).toNat = 2
        · refine ⟨stepWrites_writer len w h cx cy i hw0 hc1 hc2 hc4 hc6 (Or.inr hg2),
            ?_, hb1, hb2⟩
          rw [if_neg hg1, if_pos hg2]
          simp only [stepVal, writerPair]
          rw [if_neg hg1]
        · rw [if_neg hg1, if_neg hg2] at ho
          simp at ho
    · rw [if_neg hconds] at ho
      simp at ho

theorem mem_cursorPairs (dy dx : Nat) (h1 : dy < 25) (h2 : dx < 19) :
    (dy, dx) ∈ cursorPairs := by
  unfold cursorPairs
  rw [List.mem_flatMap]
  exact ⟨dy, List.mem_range.mpr h1, List.mem_map.mpr ⟨dx, List.mem_range.mpr h2, rfl⟩⟩

theorem find?_eq_some_of_unique {α : Type} (pred : α → Bool) (p₀ : α) :
    ∀ L : List α, p₀ ∈ L → (∀ q, pred q = true → q = p₀) → pred p₀ = true →
      L.find? pred = some p₀ := by
  intro L
  induction L with
  | nil => intro hm _ _; simp at hm
  | cons a L ih =>
      intro hm huniq hp
      by_cases ha : pred a = true
      · rw [List.find?_cons_of_pos _ ha, huniq a ha]
      · rw [List.find?_cons_of_neg _ ha]
        rcases List.mem_cons.mp hm with rfl | hm'
        · exact absurd hp ha
        · exact ih hm' huniq hp

/-- C10: `draw_cursor` never writes out of bounds — the result has the same
length as the input and every byte is given pointwise by `cursorOverlay`: a
byte changes only when its pixel lies inside the frame, inside the 19×25
cursor box at the cursor position, its glyph cell is non-transparent (1 or 2),
and its three bytes fit in the buffer, in which case the pixel's bytes are all
0 (pure black) or all 255 (pure white); every other byte is unchanged, for
every buffer length, frame size and (possibly negative) cursor position. -/
theorem drawCursor_frame_effect :
    (∀ (data : List Nat) (w h : Nat) (cx cy : Int),
      (drawCursor data w h cx cy).length = data.length)
    ∧ (∀ (data : List Nat) (w h : Nat) (cx cy : Int) (i : Nat),
        (drawCursor data w h cx cy)[i]?
          = match cursorOverlay data.length w h cx cy i with
            | some v => some v
            | none => data[i]?)
    ∧ (∀ (len w h : Nat) (cx cy : Int) (i v : Nat),
        cursorOverlay len w h cx cy i = some v →
        (v = 0 ∨ v = 255)
        ∧ i / 3 / w < h
        ∧ cx ≤ ((i / 3 % w : Nat) : Int) ∧ ((i / 3 % w : Nat) : Int) < cx + 19
        ∧ cy ≤ ((i / 3 / w : Nat) : Int) ∧ ((i / 3 / w : Nat) : Int) < cy + 25
        ∧ 3 * (i / 3) + 2 < len
        ∧ glyphAt (((i / 3 / w : Nat) : Int) - cy).toNat
            (((i / 3 % w : Nat) : Int) - cx).toNat ≠ 0) := by
  refine ⟨?_, ?_, ?_⟩
  · intro data w h cx cy
    exact (foldl_drawCursorStep w h cx cy cursorPairs data).1
  · intro data w h cx cy i
    rw [show drawCursor data w h cx cy
        = cursorPairs.foldl (drawCursorStep w h cx cy) data from rfl]
    rw [(foldl_drawCursorStep w h cx cy cursorPairs data).2 i]
    cases ho : cursorOverlay data.length w h cx cy i with
    | none =>
        have hfind : cursorPairs.reverse.find?
            (fun p => stepWrites data.length w h cx cy p i) = none := by
          rw [List.find?_eq_none]
          intro q _ hq
          have hov := (stepWrites_forward _ _ _ _ _ _ _ hq).1
          rw [ho] at hov
          exact absurd hov (by simp)
        rw [hfind]
    | some v =>
        have hsome : (cursorOverlay data.length w h cx cy i).isSome = true := by
          rw [ho]; rfl
        obtain ⟨hsw, hval, hb1, hb2⟩ :=
          stepWrites_backward data.length w h cx cy i hsome
        have hfind : cursorPairs.reverse.find?
            (fun p => stepWrites data.length w h cx cy p i)
            = some (writerPair w cx cy i) := by
          apply find?_eq_some_of_unique
          · rw [List.mem_reverse]
            exact mem_cursorPairs _ _ hb1 hb2
          · intro q hq
            exact (stepWrites_forward _ _ _ _ _ _ _ hq).2
          · exact hsw
        rw [hfind]
        have := hval.symm.trans ho
        simpa using this
  · intro len w h cx cy i v hv
    simp only [cursorOverlay] at hv
    by_cases hw : w = 0
    · rw [if_pos hw] at hv; exact absurd hv (by simp)
    · rw [if_neg hw] at hv
      by_cases hconds : i / 3 / w < h ∧ cx ≤ ((i / 3 % w : Nat) : Int)
          ∧ ((i / 3 % w : Nat) : Int) < cx + 19
          ∧ cy ≤ ((i / 3 / w : Nat) : Int) ∧ ((i / 3 / w : Nat) : Int) < cy + 25
          ∧ 3 * (i / 3) + 2 < len
      · rw [if_pos hconds] at hv
        obtain ⟨hc1, hc2, hc3, hc4, hc5, hc6⟩ := hconds
        by_cases hg1 : glyphAt (((i / 3 / w : Nat) : Int) - cy).toNat
            (((i / 3 % w : Nat) : Int) - cx).toNat = 1
        · rw [if_pos hg1] at hv
          have hv0 : v = 0 := by simpa using hv.symm
          exact ⟨Or.inl hv0, hc1, hc2, hc3, hc4, hc5, hc6, by rw [hg1]; omega⟩
        · rw [if_neg hg1] at hv
          by_cases hg2 : glyphAt (((i / 3 / w : Nat) : Int) - cy).toNat
              (((i / 3 % w : Nat) : Int) - cx).toNat = 2
          · rw [if_pos hg2] at hv
            have hv255 : v = 255 := by simpa using hv.symm
            exact ⟨Or.inr hv255, hc1, hc2, hc3, hc4, hc5, hc6, by rw [hg2]; omega⟩
          · rw [if_neg hg2] at hv
            exact absurd hv (by simp)
      · rw [if_neg hconds] at hv
        exact absurd hv (by simp)

end OmegaRec
